import Mathlib

set_option linter.unusedSectionVars false

/-!
Shallow embedding of the entity/component store of the srecs crate
(files src/world.rs, src/entity.rs, src/components.rs and its test
suite tests/lib.rs), together with proofs of the specification claims.

Conventions of the embedding:
* Rust usize becomes Nat (the spec puts counter overflow out of scope).
* Vec<T> becomes List T.  Vec::push / Vec::pop act on the back of a
  Rust vector; we represent the reusable-index stack with its top at
  the head of the list, which realises the same LIFO discipline.
* AnyMap (one value per type) becomes an association list keyed by a
  type tag t : TyTag, holding a value of type CVal t.
* HashMap<usize, usize> becomes an association list Nat x Nat where
  insertion replaces any previous binding of the key.  HashMap
  iteration order is unspecified in Rust; the embedding iterates in
  list order (every claim proved here is insensitive to that order).
* HashMap<Entity, Entity> (the parent table) becomes a function
  Entity -> Option Entity updated pointwise; the commit-time pruning
  loop, whose per-entry test does not depend on the table itself, is
  rendered as the equivalent pointwise filter.
* The unchecked vector indexing self.components[idx] of the source is
  rendered with List.getD; claim C9 proves the index is in bounds in
  every reachable world, so the default is never consulted.
* The parent-chain loops of has_component / get_component can diverge
  (no cycle detection); they are embedded with an explicit fuel
  argument, where a result of none means the fuel was exhausted and
  some r means the loop terminated by itself with result r.
-/

/-- Entity identifier, from src/entity.rs: an index into the slot table
plus a generation (uuid) disambiguating reuse of the slot. -/
structure Entity where
  idx : Nat
  uuid : Nat
deriving DecidableEq, Repr

/-- Type-keyed heterogeneous map, modelling the anymap::AnyMap used for
per-slot component storage: at most one value per type tag. -/
def AnyMap (TyTag : Type) (CVal : TyTag → Type) : Type :=
  List ((t : TyTag) × CVal t)

namespace AnyMap

variable {TyTag : Type} [DecidableEq TyTag] {CVal : TyTag → Type}

/-- AnyMap::new. -/
def empty {TyTag : Type} {CVal : TyTag → Type} : AnyMap TyTag CVal := []

/-- AnyMap::get: the value stored under type tag t, if any. -/
def get : AnyMap TyTag CVal → (t : TyTag) → Option (CVal t)
  | [], _ => none
  | ⟨t', v⟩ :: rest, t => if h : t' = t then some (h ▸ v) else get rest t

/-- Remove any binding of tag t (helper for insert and remove). -/
def erase (m : AnyMap TyTag CVal) (t : TyTag) : AnyMap TyTag CVal :=
  m.filter (fun p => !(decide (p.1 = t)))

/-- AnyMap::insert: stores v under tag t, returning the previous value
of that tag together with the updated map. -/
def insert (m : AnyMap TyTag CVal) (t : TyTag) (v : CVal t) :
    Option (CVal t) × AnyMap TyTag CVal :=
  (get m t, ⟨t, v⟩ :: erase m t)

/-- AnyMap::contains. -/
def contains (m : AnyMap TyTag CVal) (t : TyTag) : Bool :=
  (get m t).isSome

end AnyMap

/-- Association-list rendering of HashMap<usize, usize>; insertion
replaces any previous binding of the key. -/
def hmInsert (m : List (Nat × Nat)) (k v : Nat) : List (Nat × Nat) :=
  (k, v) :: m.filter (fun p => !(decide (p.1 = k)))

/-- Lookup in the association-list rendering of HashMap<usize, usize>. -/
def hmGet (m : List (Nat × Nat)) (k : Nat) : Option Nat :=
  match m.find? (fun p => decide (p.1 = k)) with
  | some p => some p.2
  | none => none

/-- The World of src/world.rs: keeps track of entities and their
components. -/
structure World (TyTag : Type) (CVal : TyTag → Type) where
  next_idx : Nat
  next_uuid : Nat
  /-- Lists every entity with its uuid; a uuid of 0 means an inactive
  entity. -/
  active : List Nat
  reusable_idxs : List Nat
  /-- List of all the components, one AnyMap per slot. -/
  components : List (AnyMap TyTag CVal)
  parents : Entity → Option Entity
  ent_added : List (Nat × Nat)
  ent_remove : List (Nat × Nat)
  ent_changed : List (Nat × Nat)

namespace World

variable {TyTag : Type} [DecidableEq TyTag] {CVal : TyTag → Type}

/-- World::new. -/
def new (TyTag : Type) (CVal : TyTag → Type) : World TyTag CVal where
  next_idx := 0
  next_uuid := 1
  active := []
  reusable_idxs := []
  components := []
  parents := fun _ => none
  ent_added := []
  ent_remove := []
  ent_changed := []

/-- Vec::resize(n, 0) as used in add_entity: grow (never shrink) the
slot table with zeros up to length n. -/
def resizeTo (l : List Nat) (n : Nat) : List Nat :=
  l ++ List.replicate (n - l.length) 0

/-- World::add_entity: reuses a free index if available, otherwise
takes next_idx (growing the components vector); issues a fresh uuid,
registers the slot as active and the entity as newly added. -/
def add_entity (w : World TyTag CVal) : Entity × World TyTag CVal :=
  let popped :=
    match w.reusable_idxs with
    | [] => (w.next_idx, w.next_idx + 1, w.components ++ [AnyMap.empty], ([] : List Nat))
    | i :: rest => (i, w.next_idx, w.components, rest)
  let idx := popped.1
  let uuid := w.next_uuid
  let grown := if w.active.length ≤ uuid then resizeTo w.active (uuid + 1) else w.active
  (⟨idx, uuid⟩,
    { w with
      next_idx := popped.2.1
      next_uuid := uuid + 1
      active := grown.set idx uuid
      reusable_idxs := popped.2.2.2
      components := popped.2.2.1
      ent_added := hmInsert w.ent_added idx uuid })

/-- World::remove_entity: slates an entity for removal; nothing else
happens until confirm_changes. -/
def remove_entity (w : World TyTag CVal) (e : Entity) : World TyTag CVal :=
  { w with ent_remove := hmInsert w.ent_remove e.idx e.uuid }

/-- World::is_valid_entity: the slot at e.idx currently holds e.uuid
and that uuid is nonzero. -/
def is_valid_entity (w : World TyTag CVal) (e : Entity) : Bool :=
  match w.active.get? e.idx with
  | some uuid => uuid ≠ 0 && e.uuid = uuid
  | none => false

/-- One step of the removal loop of confirm_changes: if the slated
(idx, uuid) pair is still valid, free the slot and clear its
components. -/
def removeStep (w : World TyTag CVal) (p : Nat × Nat) : World TyTag CVal :=
  if is_valid_entity w ⟨p.1, p.2⟩ then
    { w with
      active := w.active.set p.1 0
      reusable_idxs := p.1 :: w.reusable_idxs
      components := w.components.set p.1 AnyMap.empty }
  else w

/-- World::confirm_changes: apply all slated removals, prune parent
links whose endpoints are no longer valid, and clear the added,
removed and changed logs. -/
def confirm_changes (w : World TyTag CVal) : World TyTag CVal :=
  let w1 := w.ent_remove.foldl removeStep w
  let w2 := { w1 with
    parents := fun c =>
      match w1.parents c with
      | some p =>
          if is_valid_entity w1 c && is_valid_entity w1 p then some p else none
      | none => none }
  { w2 with ent_added := [], ent_remove := [], ent_changed := [] }

/-- World::add_component: validity-gated insert into the slot's
AnyMap, marking the entity changed; returns the replaced value. -/
def add_component (w : World TyTag CVal) (e : Entity) (t : TyTag) (v : CVal t) :
    Option (CVal t) × World TyTag CVal :=
  if is_valid_entity w e then
    let m := w.components.getD e.idx AnyMap.empty
    let r := AnyMap.insert m t v
    (r.1,
      { w with
        ent_changed := hmInsert w.ent_changed e.idx e.uuid
        components := w.components.set e.idx r.2 })
  else (none, w)

/-- World::get_parent: the stored parent, provided the entity itself
is valid. -/
def get_parent (w : World TyTag CVal) (e : Entity) : Option Entity :=
  if is_valid_entity w e then w.parents e else none

/-- The parent-chain loop of has_component, with explicit fuel: none
means the fuel ran out, some b means the loop stopped with result b. -/
def hasCompLoop (w : World TyTag CVal) (t : TyTag) : Nat → Entity → Option Bool
  | 0, _ => none
  | fuel + 1, cur =>
    if is_valid_entity w cur then
      if AnyMap.contains (w.components.getD cur.idx AnyMap.empty) t then
        some true
      else
        match get_parent w cur with
        | some parent => hasCompLoop w t fuel parent
        | none => some false
    else some false

/-- World::has_component: direct check on the entity, then the
parent-chain walk. -/
def has_component (w : World TyTag CVal) (t : TyTag) (e : Entity) (fuel : Nat) :
    Option Bool :=
  if is_valid_entity w e then
    if AnyMap.contains (w.components.getD e.idx AnyMap.empty) t then some true
    else hasCompLoop w t fuel e
  else some false

/-- The parent-chain loop of get_component, with explicit fuel: none
means the fuel ran out, some r means the loop stopped with result r. -/
def getCompLoop (w : World TyTag CVal) (t : TyTag) :
    Nat → Entity → Option (Option (CVal t))
  | 0, _ => none
  | fuel + 1, cur =>
    if is_valid_entity w cur then
      match AnyMap.get (w.components.getD cur.idx AnyMap.empty) t with
      | some v => some (some v)
      | none =>
        match get_parent w cur with
        | some parent => getCompLoop w t fuel parent
        | none => some none
    else some none

/-- World::get_component: direct lookup on the entity, then the
parent-chain walk. -/
def get_component (w : World TyTag CVal) (t : TyTag) (e : Entity) (fuel : Nat) :
    Option (Option (CVal t)) :=
  if is_valid_entity w e then
    match AnyMap.get (w.components.getD e.idx AnyMap.empty) t with
    | some v => some (some v)
    | none => getCompLoop w t fuel e
  else some none

/-- World::get_mut_component: validity-gated direct lookup; never
walks the parent chain; marks the entity changed exactly when a value
is found. -/
def get_mut_component (w : World TyTag CVal) (e : Entity) (t : TyTag) :
    Option (CVal t) × World TyTag CVal :=
  if is_valid_entity w e then
    match AnyMap.get (w.components.getD e.idx AnyMap.empty) t with
    | some v =>
        (some v, { w with ent_changed := hmInsert w.ent_changed e.idx e.uuid })
    | none => (none, w)
  else (none, w)

/-- World::remove_component: validity-gated removal from the entity's
own slot; marks the entity changed exactly when a value was present. -/
def remove_component (w : World TyTag CVal) (e : Entity) (t : TyTag) :
    Option (CVal t) × World TyTag CVal :=
  if is_valid_entity w e then
    let m := w.components.getD e.idx AnyMap.empty
    match AnyMap.get m t with
    | some v =>
        (some v,
          { w with
            ent_changed := hmInsert w.ent_changed e.idx e.uuid
            components := w.components.set e.idx (AnyMap.erase m t) })
    | none => (none, w)
  else (none, w)

/-- World::set_parent: stores the association only if both endpoints
are valid; otherwise returns false and leaves the table unchanged. -/
def set_parent (w : World TyTag CVal) (e parent : Entity) :
    Bool × World TyTag CVal :=
  if is_valid_entity w e && is_valid_entity w parent then
    (true, { w with parents := fun c => if c = e then some parent else w.parents c })
  else (false, w)

/-- World::unlink_parent: removes the parenting link of a valid
entity. -/
def unlink_parent (w : World TyTag CVal) (e : Entity) : World TyTag CVal :=
  if is_valid_entity w e then
    { w with parents := fun c => if c = e then none else w.parents c }
  else w

/-- Modelled from the spec: the EntityIterator's next() body is not in
the sources under src/ (only its construction in World::iterator is);
following section 4.6 of the spec, the iterator scans the slot table
from the cursor, skips slots whose generation is 0, skips indices
present in the pending-added mapping, and yields every other slot as
an Entity.  This definition is the full sequence it yields. -/
def iterEntities (active : List Nat) (added : List (Nat × Nat)) : List Entity :=
  (List.range active.length).filterMap fun idx =>
    let uuid := active.getD idx 0
    if uuid = 0 then none
    else if (hmGet added idx).isSome then none
    else some ⟨idx, uuid⟩

/-- World::list_entities: every slot with nonzero generation that is
not pending in the added map (with matching uuid). -/
def list_entities (w : World TyTag CVal) : List Entity :=
  (((w.active.enum.filter (fun p => !(decide (p.2 = 0)))).filter
      (fun p =>
        match hmGet w.ent_added p.1 with
        | some other_uuid => !(decide (p.2 = other_uuid))
        | none => true)).map
    (fun p => ⟨p.1, p.2⟩))

/-- World::list_additions. -/
def list_additions (w : World TyTag CVal) : List Entity :=
  w.ent_added.map fun p => ⟨p.1, p.2⟩

/-- World::list_removals. -/
def list_removals (w : World TyTag CVal) : List Entity :=
  w.ent_remove.map fun p => ⟨p.1, p.2⟩

/-- World::list_changes. -/
def list_changes (w : World TyTag CVal) : List Entity :=
  w.ent_changed.map fun p => ⟨p.1, p.2⟩

end World

/-- One call of the public mutating API of the World, used to quantify
over all operation sequences a caller can perform. -/
inductive Op (TyTag : Type) (CVal : TyTag → Type) where
  | addEntity
  | removeEntity (e : Entity)
  | confirm
  | addComponent (e : Entity) (t : TyTag) (v : CVal t)
  | getMutComponent (e : Entity) (t : TyTag)
  | removeComponent (e : Entity) (t : TyTag)
  | setParent (e parent : Entity)
  | unlinkParent (e : Entity)

namespace World

variable {TyTag : Type} [DecidableEq TyTag] {CVal : TyTag → Type}

/-- Effect of one public call on the World, together with the entity
it returned when the call was add_entity. -/
def applyOp (w : World TyTag CVal) : Op TyTag CVal → World TyTag CVal × Option Entity
  | .addEntity => ((add_entity w).2, some (add_entity w).1)
  | .removeEntity e => (remove_entity w e, none)
  | .confirm => (confirm_changes w, none)
  | .addComponent e t v => ((add_component w e t v).2, none)
  | .getMutComponent e t => ((get_mut_component w e t).2, none)
  | .removeComponent e t => ((remove_component w e t).2, none)
  | .setParent e p => ((set_parent w e p).2, none)
  | .unlinkParent e => (unlink_parent w e, none)

/-- Run a sequence of public calls, collecting the entities returned
by the add_entity calls in order. -/
def run (w : World TyTag CVal) : List (Op TyTag CVal) → World TyTag CVal × List Entity
  | [] => (w, [])
  | op :: ops =>
    let s := applyOp w op
    let r := run s.1 ops
    (r.1, s.2.toList ++ r.2)

/-- A World is reachable when some sequence of public calls produces
it from World::new. -/
def Reachable (w : World TyTag CVal) : Prop :=
  ∃ ops : List (Op TyTag CVal), w = (run (new TyTag CVal) ops).1

/-- One iteration of the parent-chain walk shared by has_component and
get_component: the entity the walk advances to, or none when the walk
stops in this iteration (entity invalid, component found, or no parent
stored). -/
def walkStep (w : World TyTag CVal) (t : TyTag) (cur : Entity) : Option Entity :=
  if is_valid_entity w cur then
    if AnyMap.contains (w.components.getD cur.idx AnyMap.empty) t then none
    else get_parent w cur
  else none

/-- The state of the parent-chain walk after n iterations from the
queried entity. -/
def orbit (w : World TyTag CVal) (t : TyTag) (e : Entity) : Nat → Option Entity
  | 0 => some e
  | n + 1 =>
    match orbit w t e n with
    | some c => walkStep w t c
    | none => none

/-- The acyclicity precondition on the parent-chain walk from e: among
the first active-table-length + 1 walk states, no entity repeats. -/
def AcyclicFrom (w : World TyTag CVal) (t : TyTag) (e : Entity) : Prop :=
  ∀ m, m < w.active.length + 1 → ∀ n, n < w.active.length + 1 → m < n →
    (orbit w t e n).isSome = true → orbit w t e m ≠ orbit w t e n

instance (w : World TyTag CVal) (t : TyTag) (e : Entity) :
    Decidable (AcyclicFrom w t e) := by
  unfold AcyclicFrom; infer_instance

/-- The n-th ancestor of an entity along the links stored by
set_parent (0-th ancestor is the entity itself). -/
def parentIter (w : World TyTag CVal) (e : Entity) : Nat → Option Entity
  | 0 => some e
  | n + 1 =>
    match parentIter w e n with
    | some a => get_parent w a
    | none => none

/-- Whether the walk state o holds an entity that stores no component
of type t (vacuously true when the walk has stopped). -/
def lacksAt (w : World TyTag CVal) (t : TyTag) : Option Entity → Bool
  | some a => !(AnyMap.contains (w.components.getD a.idx AnyMap.empty) t)
  | none => true

/-- The entity returned by the add_entity call made right after the
call sequence pre has run from a fresh World. -/
def createdEnt (pre : List (Op TyTag CVal)) : Entity :=
  (add_entity (run (new TyTag CVal) pre).1).1

/-- The World obtained by running pre from fresh, creating one entity,
then running mid. -/
def midWorld (pre mid : List (Op TyTag CVal)) : World TyTag CVal :=
  (run (add_entity (run (new TyTag CVal) pre).1).2 mid).1

/-- The structural invariant every reachable World maintains: the
counters dominate the tables, active slots lie below next_idx (whose
value is the length of the components vector), every slot value lies
below the uuid counter, and the free list holds distinct, in-range,
inactive slots. -/
structure Inv (w : World TyTag CVal) : Prop where
  uuid_pos : 0 < w.next_uuid
  idx_lt_uuid : w.next_idx < w.next_uuid
  comps_len : w.components.length = w.next_idx
  active_lt_idx : ∀ i, w.active.getD i 0 ≠ 0 → i < w.next_idx
  active_lt_uuid : ∀ i, w.active.getD i 0 < w.next_uuid
  reus_free : ∀ i ∈ w.reusable_idxs, w.active.getD i 0 = 0
  reus_nodup : w.reusable_idxs.Nodup
  reus_lt_idx : ∀ i ∈ w.reusable_idxs, i < w.next_idx

end World

/-- Position component used by the test suite (tests/lib.rs). -/
structure Pos where
  x : Nat
  y : Nat
deriving DecidableEq, Repr

/-- Reference to the parent of an entity, from src/components.rs. -/
structure Parent where
  entity : Entity
deriving DecidableEq, Repr

/-- Lists the children of a parental entity, from src/components.rs. -/
structure Children where
  entities : List Entity
deriving DecidableEq, Repr

/-- Tags for the concrete component types the scenarios use. -/
inductive CompTy where
  | position
  | parentLink
  | childrenList
deriving DecidableEq, Repr

/-- Values carried by each concrete component tag. -/
def CompVal : CompTy → Type
  | .position => Pos
  | .parentLink => Parent
  | .childrenList => Children

instance : (t : CompTy) → DecidableEq (CompVal t)
  | .position => inferInstanceAs (DecidableEq Pos)
  | .parentLink => inferInstanceAs (DecidableEq Parent)
  | .childrenList => inferInstanceAs (DecidableEq Children)

/-- Abbreviation for the World instantiated at the concrete component
universe of the test suite. -/
abbrev CWorld : Type := World CompTy CompVal

/-- Abbreviation for operations over the concrete component
universe. -/
abbrev COp : Type := Op CompTy CompVal

/-- The fresh concrete World. -/
def cnew : CWorld := World.new CompTy CompVal

/-- The call sequence of the parenting scenario of tests/lib.rs: three
entities are created and committed; a Position is attached to the
parent, and Parent components (not set_parent links) are attached to
the child and grandchild. -/
def parentingOps : List COp :=
  [.addEntity, .addEntity, .addEntity, .confirm,
    .addComponent ⟨0, 1⟩ .position ⟨10, 12⟩,
    .addComponent ⟨1, 2⟩ .parentLink ⟨⟨0, 1⟩⟩,
    .addComponent ⟨2, 3⟩ .parentLink ⟨⟨1, 2⟩⟩]

/-- The World after the parenting scenario of tests/lib.rs. -/
def parentingWorld : CWorld := (World.run cnew parentingOps).1

/-- The parenting scenario rebuilt with set_parent links instead of
Parent components (used to exhibit inheritance through the table the
walk actually consults). -/
def linkedOps : List COp :=
  [.addEntity, .addEntity, .addEntity, .confirm,
    .addComponent ⟨0, 1⟩ .position ⟨10, 12⟩,
    .setParent ⟨1, 2⟩ ⟨0, 1⟩,
    .setParent ⟨2, 3⟩ ⟨1, 2⟩]

/-- The World after the set_parent variant of the parenting
scenario. -/
def linkedWorld : CWorld := (World.run cnew linkedOps).1

/-- A reachable World in which set_parent formed a parent cycle
between the two committed entities. -/
def cyclicOps : List COp :=
  [.addEntity, .addEntity, .confirm,
    .setParent ⟨0, 1⟩ ⟨1, 2⟩,
    .setParent ⟨1, 2⟩ ⟨0, 1⟩]

/-- The World whose parent table holds the two-cycle A to B to A. -/
def cyclicWorld : CWorld := (World.run cnew cyclicOps).1

/-- A World holding one committed entity and no parent links, used as
a concrete acyclic instance. -/
def singleEntityWorld : CWorld := (World.run cnew [.addEntity, .confirm]).1

/-- A call sequence that stages a removal for the identity (0, 5)
before any entity with that identity exists: four creations, the
destruction and commit of the first entity (freeing slot 0), then a
destroy call with the future pair (0, 5). -/
def staleRemovalOps : List COp :=
  [.addEntity, .addEntity, .addEntity, .addEntity,
    .removeEntity ⟨0, 1⟩, .confirm, .removeEntity ⟨0, 5⟩]

/-! Helper lemmas about the association-list maps. -/

theorem hmGet_insert_self (m : List (Nat × Nat)) (k v : Nat) :
    hmGet (hmInsert m k v) k = some v := by
  simp [hmGet, hmInsert, List.find?]

theorem find?_filter_ne (m : List (Nat × Nat)) (k k' : Nat) (h : k' ≠ k) :
    List.find? (fun p => decide (p.1 = k'))
      (m.filter (fun p => !(decide (p.1 = k)))) =
    List.find? (fun p => decide (p.1 = k')) m := by
  have hk : ¬ (k = k') := by omega
  induction m with
  | nil => rfl
  | cons a m ih =>
    by_cases ha : a.1 = k
    · have ha' : ¬ a.1 = k' := by omega
      simp [List.filter_cons, ha, ha', List.find?, ih, hk]
    · by_cases ha' : a.1 = k'
      · simp [List.filter_cons, ha, ha', List.find?, hk, h]
      · simp [List.filter_cons, ha, ha', List.find?, ih, hk, h]

theorem hmGet_insert_ne (m : List (Nat × Nat)) (k v k' : Nat) (h : k' ≠ k) :
    hmGet (hmInsert m k v) k' = hmGet m k' := by
  have hk : ¬ (k = k') := by omega
  simp [hmGet, hmInsert, List.find?, hk, find?_filter_ne m k k' h]

theorem mem_hmInsert {m : List (Nat × Nat)} {k v : Nat} {p : Nat × Nat}
    (h : p ∈ hmInsert m k v) : p = (k, v) ∨ p ∈ m := by
  rcases List.mem_cons.mp h with h | h
  · exact Or.inl h
  · exact Or.inr (List.mem_filter.mp h).1

theorem hmGet_mem {m : List (Nat × Nat)} {k v : Nat}
    (h : hmGet m k = some v) : (k, v) ∈ m := by
  unfold hmGet at h
  cases hf : List.find? (fun p => decide (p.1 = k)) m with
  | none => rw [hf] at h; exact absurd h (by simp)
  | some p =>
    rw [hf] at h
    have hp := List.find?_some hf
    have hm := List.mem_of_find?_eq_some hf
    have hk : p.1 = k := by simpa using hp
    have hv : p.2 = v := by simpa using h
    have : p = (k, v) := by
      cases p; simp_all
    exact this ▸ hm

/-! Helper lemmas about the slot table. -/

namespace World

variable {TyTag : Type} [DecidableEq TyTag] {CVal : TyTag → Type}

theorem resizeTo_getD (l : List Nat) (n i : Nat) :
    (resizeTo l n).getD i 0 = l.getD i 0 := by
  unfold resizeTo
  by_cases h : i < l.length
  · exact List.getD_append l _ 0 i h
  · rw [List.getD_eq_default l 0 (by omega)]
    rw [List.getD_append_right l _ 0 i (by omega)]
    simp [List.getD_eq_getElem?_getD, List.getElem?_getD_replicate_default_eq]

theorem resizeTo_length (l : List Nat) (n : Nat) :
    (resizeTo l n).length = l.length + (n - l.length) := by
  simp [resizeTo]

theorem getD_set_self (l : List Nat) (i a : Nat) (h : i < l.length) :
    (l.set i a).getD i 0 = a := by
  simp [List.getD_eq_getElem?_getD, List.getElem?_set_self h]

theorem getD_set_ne (l : List Nat) (i a j : Nat) (h : j ≠ i) :
    (l.set i a).getD j 0 = l.getD j 0 := by
  simp [List.getD_eq_getElem?_getD, List.getElem?_set_ne (Ne.symm h)]

/-- Unfolding of the validity check in terms of getD. -/
theorem is_valid_iff {w : World TyTag CVal} {e : Entity} :
    is_valid_entity w e = true ↔
      e.idx < w.active.length ∧ w.active.getD e.idx 0 = e.uuid ∧ e.uuid ≠ 0 := by
  unfold is_valid_entity
  rw [List.getD_eq_getD_get?]
  cases h : w.active.get? e.idx with
  | none =>
    have hlen : w.active.length ≤ e.idx := List.get?_eq_none.mp h
    simp only [Option.getD_none]
    constructor
    · intro hc; exact absurd hc (by simp)
    · rintro ⟨h1, -, -⟩; omega
  | some u =>
    obtain ⟨hlt, -⟩ := List.get?_eq_some.mp h
    simp only [Option.getD_some, Bool.and_eq_true, decide_eq_true_eq, ne_eq,
      bne_iff_ne]
    constructor
    · rintro ⟨h1, h2⟩
      refine ⟨hlt, h2.symm, by simpa [h2] using h1⟩
    · rintro ⟨-, h2, h3⟩
      exact ⟨by simpa [← h2] using h3, h2.symm⟩

/-- Two simultaneously valid entities with the same index are the same
entity: validity forces the uuid to be the slot's current uuid. -/
theorem valid_same_idx {w : World TyTag CVal} {e1 e2 : Entity}
    (h1 : is_valid_entity w e1 = true) (h2 : is_valid_entity w e2 = true)
    (hidx : e1.idx = e2.idx) : e1 = e2 := by
  obtain ⟨-, hg1, -⟩ := is_valid_iff.mp h1
  obtain ⟨-, hg2, -⟩ := is_valid_iff.mp h2
  cases e1; cases e2
  simp_all

theorem is_valid_congr {w w' : World TyTag CVal} (ha : w'.active = w.active)
    (e : Entity) : is_valid_entity w' e = is_valid_entity w e := by
  simp [is_valid_entity, ha]

theorem get_parent_congr {w w' : World TyTag CVal} (ha : w'.active = w.active)
    (hp : w'.parents = w.parents) (e : Entity) :
    get_parent w' e = get_parent w e := by
  simp [get_parent, is_valid_congr ha, hp]

theorem getCompLoop_congr {w w' : World TyTag CVal} {t : TyTag}
    (ha : w'.active = w.active) (hc : w'.components = w.components)
    (hp : w'.parents = w.parents) :
    ∀ fuel e, getCompLoop w' t fuel e = getCompLoop w t fuel e := by
  intro fuel
  induction fuel with
  | zero => intro e; rfl
  | succ fuel ih =>
    intro e
    simp only [getCompLoop, is_valid_congr ha, hc, get_parent_congr ha hp]
    cases is_valid_entity w e <;>
      simp only [Bool.false_eq_true, if_false, if_true]
    cases AnyMap.get (w.components.getD e.idx AnyMap.empty) t <;> simp only
    cases get_parent w e <;> simp only
    exact ih _

theorem get_component_congr {w w' : World TyTag CVal} {t : TyTag}
    (ha : w'.active = w.active) (hc : w'.components = w.components)
    (hp : w'.parents = w.parents) (e : Entity) (fuel : Nat) :
    get_component w' t e fuel = get_component w t e fuel := by
  simp only [get_component, is_valid_congr ha, hc,
    getCompLoop_congr ha hc hp]

/-! Lemmas relating the fuel-indexed walk loops to walkStep and
orbit. -/

theorem walkStep_some_elim {w : World TyTag CVal} {t : TyTag} {cur p : Entity}
    (h : walkStep w t cur = some p) :
    is_valid_entity w cur = true ∧
    AnyMap.contains (w.components.getD cur.idx AnyMap.empty) t = false ∧
    get_parent w cur = some p := by
  unfold walkStep at h
  by_cases hv : is_valid_entity w cur = true
  · rw [if_pos hv] at h
    by_cases hc : AnyMap.contains (w.components.getD cur.idx AnyMap.empty) t = true
    · rw [if_pos hc] at h; cases h
    · rw [if_neg hc] at h
      exact ⟨hv, by simpa using hc, h⟩
  · rw [if_neg hv] at h; cases h

theorem get_eq_none_of_contains_false {TyTag : Type} [DecidableEq TyTag]
    {CVal : TyTag → Type} {m : AnyMap TyTag CVal} {t : TyTag}
    (h : AnyMap.contains m t = false) : AnyMap.get m t = none := by
  cases hg : AnyMap.get m t with
  | none => rfl
  | some v => rw [AnyMap.contains, hg] at h; cases h

theorem hasCompLoop_step {w : World TyTag CVal} {t : TyTag} {cur p : Entity}
    (h : walkStep w t cur = some p) (fuel : Nat) :
    hasCompLoop w t (fuel + 1) cur = hasCompLoop w t fuel p := by
  obtain ⟨hv, hc, hp⟩ := walkStep_some_elim h
  simp only [List.getD_eq_getElem?_getD] at hc
  simp [hasCompLoop, hv, hc, hp]

theorem getCompLoop_step {w : World TyTag CVal} {t : TyTag} {cur p : Entity}
    (h : walkStep w t cur = some p) (fuel : Nat) :
    getCompLoop w t (fuel + 1) cur = getCompLoop w t fuel p := by
  obtain ⟨hv, hc, hp⟩ := walkStep_some_elim h
  have hg := get_eq_none_of_contains_false hc
  simp only [List.getD_eq_getElem?_getD] at hg
  simp [getCompLoop, hv, hg, hp]

theorem hasCompLoop_stop {w : World TyTag CVal} {t : TyTag} {cur : Entity}
    (h : walkStep w t cur = none) (fuel : Nat) :
    (hasCompLoop w t (fuel + 1) cur).isSome = true := by
  unfold walkStep at h
  by_cases hv : is_valid_entity w cur = true
  · rw [if_pos hv] at h
    by_cases hc : AnyMap.contains (w.components.getD cur.idx AnyMap.empty) t = true
    · have hc2 := hc
      simp only [List.getD_eq_getElem?_getD] at hc2
      simp [hasCompLoop, hv, hc2]
    · rw [if_neg hc] at h
      have hc' : AnyMap.contains (w.components.getD cur.idx AnyMap.empty) t = false := by
        simpa using hc
      simp only [List.getD_eq_getElem?_getD] at hc'
      simp [hasCompLoop, hv, hc', h]
  · have hv' : is_valid_entity w cur = false := by simpa using hv
    simp [hasCompLoop, hv']

theorem getCompLoop_stop {w : World TyTag CVal} {t : TyTag} {cur : Entity}
    (h : walkStep w t cur = none) (fuel : Nat) :
    (getCompLoop w t (fuel + 1) cur).isSome = true := by
  unfold walkStep at h
  by_cases hv : is_valid_entity w cur = true
  · rw [if_pos hv] at h
    by_cases hc : AnyMap.contains (w.components.getD cur.idx AnyMap.empty) t = true
    · obtain ⟨v, hg⟩ := Option.isSome_iff_exists.mp hc
      simp only [List.getD_eq_getElem?_getD] at hg
      simp [getCompLoop, hv, hg]
    · rw [if_neg hc] at h
      have hg := get_eq_none_of_contains_false (by simpa using hc)
      simp only [List.getD_eq_getElem?_getD] at hg
      simp [getCompLoop, hv, hg, h]
  · have hv' : is_valid_entity w cur = false := by simpa using hv
    simp [getCompLoop, hv']

theorem getCompLoop_stops_none {w : World TyTag CVal} {t : TyTag} {cur : Entity}
    (hv : is_valid_entity w cur = true)
    (hg : AnyMap.get (w.components.getD cur.idx AnyMap.empty) t = none)
    (hp : get_parent w cur = none) (fuel : Nat) :
    getCompLoop w t (fuel + 1) cur = some none := by
  simp only [List.getD_eq_getElem?_getD] at hg
  simp [getCompLoop, hv, hg, hp]

theorem has_component_eq_loop {w : World TyTag CVal} {t : TyTag} {e : Entity}
    (hv : is_valid_entity w e = true)
    (hc : AnyMap.contains (w.components.getD e.idx AnyMap.empty) t = false)
    (fuel : Nat) : has_component w t e fuel = hasCompLoop w t fuel e := by
  simp only [List.getD_eq_getElem?_getD] at hc
  simp [has_component, hv, hc]

theorem get_component_eq_loop {w : World TyTag CVal} {t : TyTag} {e : Entity}
    (hv : is_valid_entity w e = true)
    (hg : AnyMap.get (w.components.getD e.idx AnyMap.empty) t = none)
    (fuel : Nat) : get_component w t e fuel = getCompLoop w t fuel e := by
  simp only [List.getD_eq_getElem?_getD] at hg
  simp [get_component, hv, hg]

theorem get_component_found {w : World TyTag CVal} {t : TyTag} {e : Entity}
    {v : CVal t} (hv : is_valid_entity w e = true)
    (hg : AnyMap.get (w.components.getD e.idx AnyMap.empty) t = some v)
    (fuel : Nat) : get_component w t e fuel = some (some v) := by
  simp only [List.getD_eq_getElem?_getD] at hg
  simp [get_component, hv, hg]

theorem has_component_isSome {w : World TyTag CVal} {t : TyTag} {e : Entity}
    {fuel : Nat} (h : (hasCompLoop w t fuel e).isSome = true) :
    (has_component w t e fuel).isSome = true := by
  unfold has_component
  by_cases hv : is_valid_entity w e = true
  · by_cases hc : AnyMap.contains (w.components.getD e.idx AnyMap.empty) t = true
    · simp only [List.getD_eq_getElem?_getD] at hc
      simp [hv, hc]
    · have hc' : AnyMap.contains (w.components.getD e.idx AnyMap.empty) t = false := by
        simpa using hc
      simp only [List.getD_eq_getElem?_getD] at hc'
      simp [hv, hc', h]
  · simp [hv]

theorem get_component_isSome {w : World TyTag CVal} {t : TyTag} {e : Entity}
    {fuel : Nat} (h : (getCompLoop w t fuel e).isSome = true) :
    (get_component w t e fuel).isSome = true := by
  unfold get_component
  by_cases hv : is_valid_entity w e = true
  · cases hg : AnyMap.get (w.components.getD e.idx AnyMap.empty) t with
    | some v =>
      simp only [List.getD_eq_getElem?_getD] at hg
      simp [hv, hg]
    | none =>
      simp only [List.getD_eq_getElem?_getD] at hg
      simp [hv, hg, h]
  · simp [hv]

end World

/-! Claim theorems for the concrete scenarios and the error-handling
contracts. -/

/-- C5: starting from a fresh World, the first create yields
index 0 / generation 1, the second index 1 / generation 2; after
destroying the first entity and committing, the freed slot sits on the
free list and the next create returns index 0 with the fresh
generation 3. -/
theorem C5_slot_reuse_scenario :
    (World.add_entity cnew).1 = ⟨0, 1⟩ ∧
    (World.add_entity (World.add_entity cnew).2).1 = ⟨1, 2⟩ ∧
    (World.confirm_changes
        (World.remove_entity (World.add_entity (World.add_entity cnew).2).2
          ⟨0, 1⟩)).reusable_idxs = [0] ∧
    (World.add_entity
        (World.confirm_changes
          (World.remove_entity (World.add_entity (World.add_entity cnew).2).2
            ⟨0, 1⟩))).1 = ⟨0, 3⟩ := by
  refine ⟨rfl, rfl, by decide, by decide⟩

/-- C4: every component or parent operation handed an invalid entity
returns its absent result and leaves the World unchanged, and
set_parent with either endpoint invalid returns false without mutating
the parent table. -/
theorem C4_invalid_entity_absent_result {TyTag : Type} [DecidableEq TyTag]
    {CVal : TyTag → Type} (w : World TyTag CVal) (e p : Entity) (t : TyTag)
    (v : CVal t) (fuel : Nat) (h : World.is_valid_entity w e = false) :
    World.add_component w e t v = (none, w) ∧
    World.get_component w t e fuel = some none ∧
    World.get_mut_component w e t = (none, w) ∧
    World.remove_component w e t = (none, w) ∧
    World.get_parent w e = none ∧
    World.has_component w t e fuel = some false ∧
    World.set_parent w e p = (false, w) ∧
    World.set_parent w p e = (false, w) := by
  refine ⟨?_, ?_, ?_, ?_, ?_, ?_, ?_, ?_⟩
  · simp [World.add_component, h]
  · simp [World.get_component, h]
  · simp [World.get_mut_component, h]
  · simp [World.remove_component, h]
  · simp [World.get_parent, h]
  · simp [World.has_component, h]
  · simp [World.set_parent, h]
  · simp [World.set_parent, h]

/-- Witness for C4 at a concrete invalid entity in the fresh World. -/
theorem C4_invalid_entity_absent_result_witness :
    World.is_valid_entity cnew ⟨0, 1⟩ = false ∧
    World.get_parent cnew ⟨0, 1⟩ = none ∧
    World.has_component cnew CompTy.position ⟨0, 1⟩ 3 = some false :=
  ⟨by decide,
    (C4_invalid_entity_absent_result cnew ⟨0, 1⟩ ⟨1, 2⟩ CompTy.position
        ⟨3, 4⟩ 3 (by decide)).2.2.2.2.1,
    (C4_invalid_entity_absent_result cnew ⟨0, 1⟩ ⟨1, 2⟩ CompTy.position
        ⟨3, 4⟩ 3 (by decide)).2.2.2.2.2.1⟩

/-- C7: destroying a valid entity without committing leaves it valid,
changes no field of the World other than the pending-removed mapping,
and leaves every component lookup on it unchanged. -/
theorem C7_destroy_is_staged {TyTag : Type} [DecidableEq TyTag]
    {CVal : TyTag → Type} (w : World TyTag CVal) (e : Entity)
    (h : World.is_valid_entity w e = true) :
    World.is_valid_entity (World.remove_entity w e) e = true ∧
    (World.remove_entity w e).active = w.active ∧
    (World.remove_entity w e).components = w.components ∧
    (World.remove_entity w e).parents = w.parents ∧
    (World.remove_entity w e).ent_added = w.ent_added ∧
    (World.remove_entity w e).ent_changed = w.ent_changed ∧
    (World.remove_entity w e).next_idx = w.next_idx ∧
    (World.remove_entity w e).next_uuid = w.next_uuid ∧
    (World.remove_entity w e).reusable_idxs = w.reusable_idxs ∧
    (World.remove_entity w e).ent_remove = hmInsert w.ent_remove e.idx e.uuid ∧
    (∀ t x fuel, World.get_component (World.remove_entity w e) t x fuel =
      World.get_component w t x fuel) := by
  exact ⟨h, rfl, rfl, rfl, rfl, rfl, rfl, rfl, rfl, rfl,
    fun t x fuel =>
      @World.get_component_congr _ _ _ w (World.remove_entity w e) t
        rfl rfl rfl x fuel⟩

/-- Witness for C7 on a World with one committed entity. -/
theorem C7_destroy_is_staged_witness :
    World.is_valid_entity (World.add_entity cnew).2 ⟨0, 1⟩ = true ∧
    World.is_valid_entity
      (World.remove_entity (World.add_entity cnew).2 ⟨0, 1⟩) ⟨0, 1⟩ = true :=
  ⟨by decide, (C7_destroy_is_staged (World.add_entity cnew).2 ⟨0, 1⟩ (by decide)).1⟩

/-- C10: destroy_entity performs no validity check: an invalid entity
is still recorded in the pending-removed mapping and shows up in
list_removals until the next commit clears it; at commit, a pending
entry whose entity is not valid is skipped, freeing no slot and
clearing no components. -/
theorem C10_remove_unchecked {TyTag : Type} [DecidableEq TyTag]
    {CVal : TyTag → Type} (w : World TyTag CVal) (e : Entity)
    (h : World.is_valid_entity w e = false) :
    hmGet (World.remove_entity w e).ent_remove e.idx = some e.uuid ∧
    e ∈ World.list_removals (World.remove_entity w e) ∧
    World.list_removals (World.confirm_changes (World.remove_entity w e)) = [] ∧
    (∀ p : Nat × Nat, World.is_valid_entity w ⟨p.1, p.2⟩ = false →
      World.removeStep w p = w) := by
  refine ⟨hmGet_insert_self _ _ _, ?_, rfl, ?_⟩
  · simp [World.list_removals, World.remove_entity, hmInsert]
  · intro p hp
    simp [World.removeStep, hp]

/-- Witness for C10 with a stale entity in the fresh World. -/
theorem C10_remove_unchecked_witness :
    World.is_valid_entity cnew ⟨2, 7⟩ = false ∧
    hmGet (World.remove_entity cnew ⟨2, 7⟩).ent_remove 2 = some 7 :=
  ⟨by decide, (C10_remove_unchecked cnew ⟨2, 7⟩ (by decide)).1⟩

/-- C1: evaluation of the code on the parenting scenario of
tests/lib.rs.  Attaching Parent components with add_component does not
populate the parent table the chain walk consults (only set_parent
does), so get_component on the grandchild terminates with "no value"
for every fuel, instead of the inherited position the test asserts;
the parent itself still yields its own position. -/
theorem C1_parent_components_ignored_by_walk :
    ∀ fuel : Nat,
      World.get_component parentingWorld CompTy.position ⟨2, 3⟩ (fuel + 1) =
        some none ∧
      World.has_component parentingWorld CompTy.position ⟨2, 3⟩ (fuel + 1) =
        some false ∧
      World.get_component parentingWorld CompTy.position ⟨0, 1⟩ (fuel + 1) =
        some (some ⟨10, 12⟩) := by
  intro fuel
  refine ⟨?_, ?_, ?_⟩
  · rw [World.get_component_eq_loop (by decide) (by decide)]
    exact World.getCompLoop_stops_none (by decide) (by decide) (by decide) fuel
  · rw [World.has_component_eq_loop (by decide) (by decide)]
    have hp : World.get_parent parentingWorld ⟨2, 3⟩ = none := by decide
    have hc : (parentingWorld.components[2]?.getD AnyMap.empty).contains
        CompTy.position = false := by decide
    simp [World.hasCompLoop,
      show World.is_valid_entity parentingWorld ⟨2, 3⟩ = true by decide, hc, hp]
  · exact World.get_component_found (by decide) (by decide) _

namespace World

variable {TyTag : Type} [DecidableEq TyTag] {CVal : TyTag → Type}

theorem orbit_front (w : World TyTag CVal) (t : TyTag) (e : Entity) :
    ∀ n, orbit w t e (n + 1) =
      match walkStep w t e with
      | some e2 => orbit w t e2 n
      | none => none := by
  intro n
  induction n with
  | zero =>
    cases hW : walkStep w t e <;> simp [orbit, hW]
  | succ n ih =>
    have hunf : orbit w t e (n + 1 + 1) =
        match orbit w t e (n + 1) with
        | some c => walkStep w t c
        | none => none := rfl
    rw [hunf, ih]
    cases hW : walkStep w t e with
    | none => rfl
    | some e2 => rfl

theorem orbit_none_stop {w : World TyTag CVal} {t : TyTag} {e : Entity} :
    ∀ n, orbit w t e n = none →
      ∃ m c, m < n ∧ orbit w t e m = some c ∧ walkStep w t c = none := by
  intro n
  induction n with
  | zero => intro h; cases h
  | succ n ih =>
    intro h
    cases ho : orbit w t e n with
    | none =>
      obtain ⟨m, c, hm, hc, hs⟩ := ih ho
      exact ⟨m, c, Nat.lt_succ_of_lt hm, hc, hs⟩
    | some c =>
      have hstep : orbit w t e (n + 1) = walkStep w t c := by
        have hunf : orbit w t e (n + 1) =
            match orbit w t e n with
            | some c => walkStep w t c
            | none => none := rfl
        rw [hunf, ho]
      rw [hstep] at h
      exact ⟨n, c, Nat.lt_succ_self n, ho, h⟩

theorem loop_isSome_of_stop {w : World TyTag CVal} {t : TyTag} :
    ∀ (n : Nat) (e c : Entity), orbit w t e n = some c →
      walkStep w t c = none →
      (hasCompLoop w t (n + 1) e).isSome = true ∧
      (getCompLoop w t (n + 1) e).isSome = true := by
  intro n
  induction n with
  | zero =>
    intro e c h hs
    have he : e = c := by simpa [orbit] using h
    subst he
    exact ⟨hasCompLoop_stop hs 0, getCompLoop_stop hs 0⟩
  | succ n ih =>
    intro e c h hs
    rw [orbit_front w t e n] at h
    cases hW : walkStep w t e with
    | none => rw [hW] at h; cases h
    | some e2 =>
      rw [hW] at h
      obtain ⟨h1, h2⟩ := ih e2 c h hs
      constructor
      · rw [hasCompLoop_step hW]; exact h1
      · rw [getCompLoop_step hW]; exact h2

/-- Under the acyclicity precondition, the walk reaches a stopping
state: pigeonhole on the slot indices of the distinct valid walk
states. -/
theorem walk_stops (w : World TyTag CVal) (t : TyTag) (e : Entity)
    (hacy : AcyclicFrom w t e) :
    ∃ m c, orbit w t e m = some c ∧ walkStep w t c = none := by
  by_contra hno
  push_neg at hno
  have hall : ∀ n, ∃ c, orbit w t e n = some c := by
    intro n
    induction n with
    | zero => exact ⟨e, rfl⟩
    | succ n ih =>
      obtain ⟨c, hc⟩ := ih
      cases hWs : walkStep w t c with
      | none => exact absurd hWs (hno n c hc)
      | some p =>
        refine ⟨p, ?_⟩
        have hunf : orbit w t e (n + 1) =
            match orbit w t e n with
            | some c => walkStep w t c
            | none => none := rfl
        rw [hunf, hc]
        exact hWs
  have hvalid : ∀ n c, orbit w t e n = some c → is_valid_entity w c = true := by
    intro n c hc
    cases hWs : walkStep w t c with
    | none => exact absurd hWs (hno n c hc)
    | some p => exact (walkStep_some_elim hWs).1
  have hidx : ∀ n, ((orbit w t e n).getD e).idx < w.active.length := by
    intro n
    obtain ⟨c, hc⟩ := hall n
    rw [hc, Option.getD_some]
    exact (is_valid_iff.mp (hvalid n c hc)).1
  have hmaps : ∀ n ∈ Finset.range (w.active.length + 1),
      ((orbit w t e n).getD e).idx ∈ Finset.range w.active.length := by
    intro n _
    exact Finset.mem_range.mpr (hidx n)
  have hcard : (Finset.range w.active.length).card <
      (Finset.range (w.active.length + 1)).card := by simp
  obtain ⟨m, hm, n, hn, hne, heq⟩ :=
    Finset.exists_ne_map_eq_of_card_lt_of_maps_to hcard hmaps
  rcases Nat.lt_or_ge m n with hlt | hge
  · obtain ⟨cm, hcm⟩ := hall m
    obtain ⟨cn, hcn⟩ := hall n
    have hc : cm = cn := by
      refine valid_same_idx (hvalid m cm hcm) (hvalid n cn hcn) ?_
      rw [hcm, hcn] at heq
      simpa using heq
    refine hacy m (Finset.mem_range.mp hm) n (Finset.mem_range.mp hn) hlt
      (by rw [hcn]; rfl) ?_
    rw [hcm, hcn, hc]
  · have hlt : n < m := by omega
    obtain ⟨cm, hcm⟩ := hall m
    obtain ⟨cn, hcn⟩ := hall n
    have hc : cn = cm := by
      refine valid_same_idx (hvalid n cn hcn) (hvalid m cm hcm) ?_
      rw [hcm, hcn] at heq
      simpa using heq.symm
    refine hacy n (Finset.mem_range.mp hn) m (Finset.mem_range.mp hm) hlt
      (by rw [hcm]; rfl) ?_
    rw [hcm, hcn, hc]

/-- Acyclic parent chains make both component lookups terminate for a
large enough fuel. -/
theorem walk_terminates (w : World TyTag CVal) (t : TyTag) (e : Entity)
    (hacy : AcyclicFrom w t e) :
    ∃ fuel, (has_component w t e fuel).isSome = true ∧
      (get_component w t e fuel).isSome = true := by
  obtain ⟨m, c, hoc, hstop⟩ := walk_stops w t e hacy
  obtain ⟨h1, h2⟩ := loop_isSome_of_stop m e c hoc hstop
  exact ⟨m + 1, has_component_isSome h1, get_component_isSome h2⟩

end World

theorem cyclic_loops_exhaust : ∀ fuel : Nat,
    (World.hasCompLoop cyclicWorld CompTy.position fuel ⟨0, 1⟩ = none ∧
      World.hasCompLoop cyclicWorld CompTy.position fuel ⟨1, 2⟩ = none) ∧
    (World.getCompLoop cyclicWorld CompTy.position fuel ⟨0, 1⟩ = none ∧
      World.getCompLoop cyclicWorld CompTy.position fuel ⟨1, 2⟩ = none) := by
  intro fuel
  induction fuel with
  | zero => exact ⟨⟨rfl, rfl⟩, rfl, rfl⟩
  | succ n ih =>
    have hAB : World.walkStep cyclicWorld CompTy.position ⟨0, 1⟩ =
        some ⟨1, 2⟩ := by decide
    have hBA : World.walkStep cyclicWorld CompTy.position ⟨1, 2⟩ =
        some ⟨0, 1⟩ := by decide
    exact ⟨⟨(World.hasCompLoop_step hAB n).trans ih.1.2,
        (World.hasCompLoop_step hBA n).trans ih.1.1⟩,
      (World.getCompLoop_step hAB n).trans ih.2.2,
      (World.getCompLoop_step hBA n).trans ih.2.1⟩

/-- C2: on the reachable World whose parent table holds the set_parent
cycle A to B to A, with no component of the searched type anywhere on
the cycle, has_component and get_component on A exhaust every fuel
(the loop never stops by itself: the source loops forever); while for
every World, entity and type whose parent-chain walk is acyclic, both
operations terminate with an answer for some fuel. -/
theorem C2_cycle_divergence_and_acyclic_termination :
    (∀ fuel : Nat,
      World.has_component cyclicWorld CompTy.position ⟨0, 1⟩ fuel = none ∧
      World.get_component cyclicWorld CompTy.position ⟨0, 1⟩ fuel = none) ∧
    (∀ (TyTag : Type) [DecidableEq TyTag] (CVal : TyTag → Type)
      (w : World TyTag CVal) (t : TyTag) (e : Entity),
      World.AcyclicFrom w t e →
      ∃ fuel, (World.has_component w t e fuel).isSome = true ∧
        (World.get_component w t e fuel).isSome = true) := by
  constructor
  · intro fuel
    constructor
    · rw [World.has_component_eq_loop (by decide) (by decide)]
      exact (cyclic_loops_exhaust fuel).1.1
    · rw [World.get_component_eq_loop (by decide) (by decide)]
      exact (cyclic_loops_exhaust fuel).2.1
  · intro TyTag inst CVal w t e hacy
    exact World.walk_terminates w t e hacy

/-- Witness for C2 on a World with one committed entity and no parent
links: its walk is acyclic and both lookups terminate. -/
theorem C2_cycle_divergence_and_acyclic_termination_witness :
    World.AcyclicFrom singleEntityWorld CompTy.position ⟨0, 1⟩ ∧
    (∃ fuel,
      (World.has_component singleEntityWorld CompTy.position ⟨0, 1⟩
        fuel).isSome = true ∧
      (World.get_component singleEntityWorld CompTy.position ⟨0, 1⟩
        fuel).isSome = true) :=
  ⟨by decide,
    C2_cycle_divergence_and_acyclic_termination.2 CompTy CompVal
      singleEntityWorld CompTy.position ⟨0, 1⟩ (by decide)⟩

namespace World

variable {TyTag : Type} [DecidableEq TyTag] {CVal : TyTag → Type}

theorem get_parent_some_valid {w : World TyTag CVal} {e p : Entity}
    (h : get_parent w e = some p) : is_valid_entity w e = true := by
  unfold get_parent at h
  by_cases hv : is_valid_entity w e = true
  · exact hv
  · rw [if_neg hv] at h; cases h

theorem parentIter_front (w : World TyTag CVal) (e : Entity) :
    ∀ n, parentIter w e (n + 1) =
      match get_parent w e with
      | some p => parentIter w p n
      | none => none := by
  intro n
  induction n with
  | zero =>
    cases hp : get_parent w e <;> simp [parentIter, hp]
  | succ n ih =>
    have hunf : parentIter w e (n + 1 + 1) =
        match parentIter w e (n + 1) with
        | some a => get_parent w a
        | none => none := rfl
    rw [hunf, ih]
    cases hp : get_parent w e with
    | none => rfl
    | some p => rfl

theorem getCompLoop_chain {w : World TyTag CVal} {t : TyTag} {v : CVal t} :
    ∀ (n : Nat) (e anc : Entity),
      (∀ k, k < n → lacksAt w t (parentIter w e k) = true) →
      parentIter w e n = some anc →
      is_valid_entity w anc = true →
      AnyMap.get (w.components.getD anc.idx AnyMap.empty) t = some v →
      getCompLoop w t (n + 1) e = some (some v) := by
  intro n
  induction n with
  | zero =>
    intro e anc hlacks hanc hav hval
    have he : e = anc := by simpa [parentIter] using hanc
    subst he
    simp only [List.getD_eq_getElem?_getD] at hval
    simp [getCompLoop, hav, hval]
  | succ n ih =>
    intro e anc hlacks hanc hav hval
    rw [parentIter_front w e n] at hanc
    cases hp : get_parent w e with
    | none => rw [hp] at hanc; cases hanc
    | some p =>
      rw [hp] at hanc
      have hanc' : parentIter w p n = some anc := hanc
      have hv0 : is_valid_entity w e = true := get_parent_some_valid hp
      have hlack0 : AnyMap.contains (w.components.getD e.idx AnyMap.empty) t
          = false := by
        have := hlacks 0 (Nat.succ_pos n)
        simpa [lacksAt, parentIter] using this
      have hrest : ∀ k, k < n → lacksAt w t (parentIter w p k) = true := by
        intro k hk
        have := hlacks (k + 1) (by omega)
        rwa [parentIter_front w e k, hp] at this
      have hlack0' := hlack0
      simp only [List.getD_eq_getElem?_getD] at hlack0'
      have hW : walkStep w t e = some p := by
        unfold walkStep
        rw [if_pos hv0, if_neg (by simp [hlack0']), hp]
      rw [getCompLoop_step hW (n + 1)]
      exact ih p anc hrest hanc' hav hval

end World

/-- C8: when a valid entity does not itself store a component of type
T but one of its ancestors along the set_parent links does (with every
strictly nearer chain entity lacking T and the ancestor valid),
get_mut_component returns the absent result without touching the
World, while get_component returns the ancestor's value. -/
theorem C8_no_mutation_inheritance {TyTag : Type} [DecidableEq TyTag]
    {CVal : TyTag → Type} (w : World TyTag CVal) (t : TyTag) (e anc : Entity)
    (n : Nat) (v : CVal t)
    (hn : 0 < n)
    (hv0 : World.is_valid_entity w e = true)
    (hlacks : ∀ k, k < n → World.lacksAt w t (World.parentIter w e k) = true)
    (hanc : World.parentIter w e n = some anc)
    (hav : World.is_valid_entity w anc = true)
    (hval : AnyMap.get (w.components.getD anc.idx AnyMap.empty) t = some v) :
    World.get_mut_component w e t = (none, w) ∧
    World.get_component w t e (n + 1) = some (some v) := by
  have hlack0 : AnyMap.contains (w.components.getD e.idx AnyMap.empty) t
      = false := by
    have := hlacks 0 hn
    simpa [World.lacksAt, World.parentIter] using this
  have hg0 := World.get_eq_none_of_contains_false hlack0
  constructor
  · unfold World.get_mut_component
    simp only [List.getD_eq_getElem?_getD] at hg0
    simp [hv0, hg0]
  · rw [World.get_component_eq_loop hv0 hg0]
    exact World.getCompLoop_chain n e anc hlacks hanc hav hval

/-- Witness for C8 on the set_parent variant of the parenting
scenario: the grandchild inherits the grandparent's position for
reading but not for mutation. -/
theorem C8_no_mutation_inheritance_witness :
    World.is_valid_entity linkedWorld ⟨2, 3⟩ = true ∧
    World.get_mut_component linkedWorld ⟨2, 3⟩ CompTy.position =
      (none, linkedWorld) ∧
    World.get_component linkedWorld CompTy.position ⟨2, 3⟩ 3 =
      some (some ⟨10, 12⟩) :=
  ⟨by decide,
    (C8_no_mutation_inheritance linkedWorld CompTy.position ⟨2, 3⟩ ⟨0, 1⟩ 2
        ⟨10, 12⟩ (by decide) (by decide) (by decide) (by decide) (by decide)
        (by decide)).1,
    (C8_no_mutation_inheritance linkedWorld CompTy.position ⟨2, 3⟩ ⟨0, 1⟩ 2
        ⟨10, 12⟩ (by decide) (by decide) (by decide) (by decide) (by decide)
        (by decide)).2⟩

namespace World

variable {TyTag : Type} [DecidableEq TyTag] {CVal : TyTag → Type}

theorem add_entity_nil (w : World TyTag CVal) (h : w.reusable_idxs = []) :
    add_entity w = (⟨w.next_idx, w.next_uuid⟩,
      { w with
        next_idx := w.next_idx + 1
        next_uuid := w.next_uuid + 1
        active := (if w.active.length ≤ w.next_uuid then
            resizeTo w.active (w.next_uuid + 1) else w.active).set
          w.next_idx w.next_uuid
        reusable_idxs := []
        components := w.components ++ [AnyMap.empty]
        ent_added := hmInsert w.ent_added w.next_idx w.next_uuid }) := by
  unfold add_entity
  rw [h]

theorem add_entity_cons (w : World TyTag CVal) (i : Nat) (rest : List Nat)
    (h : w.reusable_idxs = i :: rest) :
    add_entity w = (⟨i, w.next_uuid⟩,
      { w with
        next_idx := w.next_idx
        next_uuid := w.next_uuid + 1
        active := (if w.active.length ≤ w.next_uuid then
            resizeTo w.active (w.next_uuid + 1) else w.active).set
          i w.next_uuid
        reusable_idxs := rest
        components := w.components
        ent_added := hmInsert w.ent_added i w.next_uuid }) := by
  unfold add_entity
  rw [h]

theorem grown_getD (w : World TyTag CVal) (j : Nat) :
    (if w.active.length ≤ w.next_uuid then resizeTo w.active (w.next_uuid + 1)
      else w.active).getD j 0 = w.active.getD j 0 := by
  by_cases h : w.active.length ≤ w.next_uuid
  · rw [if_pos h, resizeTo_getD]
  · rw [if_neg h]

theorem lt_grown_length (w : World TyTag CVal) (idx : Nat)
    (h : idx ≤ w.next_uuid) :
    idx < (if w.active.length ≤ w.next_uuid then
      resizeTo w.active (w.next_uuid + 1) else w.active).length := by
  by_cases hc : w.active.length ≤ w.next_uuid
  · rw [if_pos hc, resizeTo_length]; omega
  · rw [if_neg hc]; omega

theorem Inv_fields {w w' : World TyTag CVal} (hw : Inv w)
    (hn : w'.next_idx = w.next_idx) (hu : w'.next_uuid = w.next_uuid)
    (ha : w'.active = w.active) (hr : w'.reusable_idxs = w.reusable_idxs)
    (hc : w'.components.length = w.components.length) : Inv w' := by
  refine ⟨?_, ?_, ?_, ?_, ?_, ?_, ?_, ?_⟩ <;>
    simp only [hn, hu, ha, hr]
  · exact hw.uuid_pos
  · exact hw.idx_lt_uuid
  · rw [hc]; exact hw.comps_len
  · exact hw.active_lt_idx
  · exact hw.active_lt_uuid
  · exact hw.reus_free
  · exact hw.reus_nodup
  · exact hw.reus_lt_idx

theorem Inv_add_entity {w : World TyTag CVal} (hw : Inv w) :
    Inv (add_entity w).2 := by
  cases hr : w.reusable_idxs with
  | nil =>
    rw [add_entity_nil w hr]
    have hlt : w.next_idx < (if w.active.length ≤ w.next_uuid then
        resizeTo w.active (w.next_uuid + 1) else w.active).length :=
      lt_grown_length w w.next_idx (Nat.le_of_lt hw.idx_lt_uuid)
    refine ⟨?_, ?_, ?_, ?_, ?_, ?_, ?_, ?_⟩ <;> dsimp only
    · omega
    · have := hw.idx_lt_uuid; omega
    · simp [hw.comps_len]
    · intro j hj
      by_cases hj' : j = w.next_idx
      · omega
      · rw [getD_set_ne _ _ _ _ hj', grown_getD] at hj
        have := hw.active_lt_idx j hj
        omega
    · intro j
      by_cases hj' : j = w.next_idx
      · rw [hj', getD_set_self _ _ _ hlt]; omega
      · rw [getD_set_ne _ _ _ _ hj', grown_getD]
        have := hw.active_lt_uuid j; omega
    · intro j hj; cases hj
    · exact List.nodup_nil
    · intro j hj; cases hj
  | cons i rest =>
    rw [add_entity_cons w i rest hr]
    have himem : i ∈ w.reusable_idxs := by
      rw [hr]; exact List.mem_cons_self i rest
    have hi_lt : i < w.next_idx := hw.reus_lt_idx i himem
    have hlt : i < (if w.active.length ≤ w.next_uuid then
        resizeTo w.active (w.next_uuid + 1) else w.active).length :=
      lt_grown_length w i (by have := hw.idx_lt_uuid; omega)
    have hnodup : (i :: rest).Nodup := by
      have := hw.reus_nodup; rwa [hr] at this
    refine ⟨?_, ?_, ?_, ?_, ?_, ?_, ?_, ?_⟩ <;> dsimp only
    · omega
    · have := hw.idx_lt_uuid; omega
    · exact hw.comps_len
    · intro j hj
      by_cases hj' : j = i
      · omega
      · rw [getD_set_ne _ _ _ _ hj', grown_getD] at hj
        exact hw.active_lt_idx j hj
    · intro j
      by_cases hj' : j = i
      · rw [hj', getD_set_self _ _ _ hlt]; omega
      · rw [getD_set_ne _ _ _ _ hj', grown_getD]
        have := hw.active_lt_uuid j; omega
    · intro j hj
      have hjmem : j ∈ w.reusable_idxs := by
        rw [hr]; exact List.mem_cons_of_mem i hj
      have hji : j ≠ i := by
        intro hcontra
        rw [hcontra] at hj
        exact (List.nodup_cons.mp hnodup).1 hj
      rw [getD_set_ne _ _ _ _ hji, grown_getD]
      exact hw.reus_free j hjmem
    · exact (List.nodup_cons.mp hnodup).2
    · intro j hj
      exact hw.reus_lt_idx j (by rw [hr]; exact List.mem_cons_of_mem i hj)

end World

namespace World

variable {TyTag : Type} [DecidableEq TyTag] {CVal : TyTag → Type}

theorem Inv_remove_entity {w : World TyTag CVal} (hw : Inv w) (e : Entity) :
    Inv (remove_entity w e) :=
  Inv_fields hw rfl rfl rfl rfl rfl

theorem Inv_add_component {w : World TyTag CVal} (hw : Inv w) (e : Entity)
    (t : TyTag) (v : CVal t) : Inv (add_component w e t v).2 := by
  unfold add_component
  by_cases hv : is_valid_entity w e = true
  · rw [if_pos hv]
    exact Inv_fields hw rfl rfl rfl rfl (by simp)
  · rw [if_neg hv]
    exact hw

theorem Inv_get_mut_component {w : World TyTag CVal} (hw : Inv w) (e : Entity)
    (t : TyTag) : Inv (get_mut_component w e t).2 := by
  unfold get_mut_component
  by_cases hv : is_valid_entity w e = true
  · rw [if_pos hv]
    cases AnyMap.get (w.components.getD e.idx AnyMap.empty) t with
    | some v => exact Inv_fields hw rfl rfl rfl rfl rfl
    | none => exact hw
  · rw [if_neg hv]
    exact hw

theorem Inv_remove_component {w : World TyTag CVal} (hw : Inv w) (e : Entity)
    (t : TyTag) : Inv (remove_component w e t).2 := by
  unfold remove_component
  by_cases hv : is_valid_entity w e = true
  · rw [if_pos hv]
    dsimp only
    split
    · exact Inv_fields hw rfl rfl rfl rfl (by simp)
    · exact hw
  · rw [if_neg hv]
    exact hw

theorem Inv_set_parent {w : World TyTag CVal} (hw : Inv w) (e p : Entity) :
    Inv (set_parent w e p).2 := by
  unfold set_parent
  by_cases hv : (is_valid_entity w e && is_valid_entity w p) = true
  · rw [if_pos hv]
    exact Inv_fields hw rfl rfl rfl rfl rfl
  · rw [if_neg hv]
    exact hw

theorem Inv_unlink_parent {w : World TyTag CVal} (hw : Inv w) (e : Entity) :
    Inv (unlink_parent w e) := by
  unfold unlink_parent
  by_cases hv : is_valid_entity w e = true
  · rw [if_pos hv]
    exact Inv_fields hw rfl rfl rfl rfl rfl
  · rw [if_neg hv]
    exact hw

theorem Inv_removeStep {w : World TyTag CVal} (hw : Inv w) (p : Nat × Nat) :
    Inv (removeStep w p) := by
  unfold removeStep
  by_cases hv : is_valid_entity w ⟨p.1, p.2⟩ = true
  · rw [if_pos hv]
    obtain ⟨hltL, hg, hne⟩ := is_valid_iff.mp hv
    dsimp only at hltL hg hne
    refine ⟨hw.uuid_pos, hw.idx_lt_uuid, by simp [hw.comps_len], ?_, ?_, ?_,
      ?_, ?_⟩ <;> dsimp only
    · intro j hj
      by_cases hj' : j = p.1
      · rw [hj', getD_set_self _ _ _ hltL] at hj
        exact absurd rfl hj
      · rw [getD_set_ne _ _ _ _ hj'] at hj
        exact hw.active_lt_idx j hj
    · intro j
      by_cases hj' : j = p.1
      · rw [hj', getD_set_self _ _ _ hltL]
        exact hw.uuid_pos
      · rw [getD_set_ne _ _ _ _ hj']
        exact hw.active_lt_uuid j
    · intro j hj
      rcases List.mem_cons.mp hj with h1 | h1
      · rw [h1]
        exact getD_set_self _ _ _ hltL
      · by_cases hj' : j = p.1
        · rw [hj']
          exact getD_set_self _ _ _ hltL
        · rw [getD_set_ne _ _ _ _ hj']
          exact hw.reus_free j h1
    · refine List.nodup_cons.mpr ⟨?_, hw.reus_nodup⟩
      intro hmem
      have h0 := hw.reus_free p.1 hmem
      rw [hg] at h0
      exact hne h0
    · intro j hj
      rcases List.mem_cons.mp hj with h1 | h1
      · rw [h1]
        refine hw.active_lt_idx p.1 ?_
        rw [hg]
        exact hne
      · exact hw.reus_lt_idx j h1
  · rw [if_neg hv]
    exact hw

theorem Inv_foldl_removeStep {w : World TyTag CVal} (hw : Inv w) :
    ∀ l : List (Nat × Nat), Inv (l.foldl removeStep w) := by
  intro l
  induction l generalizing w with
  | nil => exact hw
  | cons p l ih => exact ih (Inv_removeStep hw p)

theorem Inv_confirm_changes {w : World TyTag CVal} (hw : Inv w) :
    Inv (confirm_changes w) := by
  unfold confirm_changes
  exact Inv_fields (Inv_foldl_removeStep hw w.ent_remove) rfl rfl rfl rfl rfl

theorem Inv_applyOp {w : World TyTag CVal} (hw : Inv w)
    (op : Op TyTag CVal) : Inv (applyOp w op).1 := by
  cases op with
  | addEntity => exact Inv_add_entity hw
  | removeEntity e => exact Inv_remove_entity hw e
  | confirm => exact Inv_confirm_changes hw
  | addComponent e t v => exact Inv_add_component hw e t v
  | getMutComponent e t => exact Inv_get_mut_component hw e t
  | removeComponent e t => exact Inv_remove_component hw e t
  | setParent e p => exact Inv_set_parent hw e p
  | unlinkParent e => exact Inv_unlink_parent hw e

theorem Inv_new : Inv (new TyTag CVal) := by
  refine ⟨?_, ?_, ?_, ?_, ?_, ?_, ?_, ?_⟩ <;> simp [new]

theorem Inv_run {w : World TyTag CVal} (hw : Inv w) :
    ∀ ops : List (Op TyTag CVal), Inv (run w ops).1 := by
  intro ops
  induction ops generalizing w with
  | nil => exact hw
  | cons op ops ih => exact ih (Inv_applyOp hw op)

theorem Inv_reachable {w : World TyTag CVal} (h : Reachable w) : Inv w := by
  obtain ⟨ops, hops⟩ := h
  rw [hops]
  exact Inv_run Inv_new ops

theorem next_uuid_removeStep (w : World TyTag CVal) (p : Nat × Nat) :
    (removeStep w p).next_uuid = w.next_uuid := by
  unfold removeStep
  by_cases hv : is_valid_entity w ⟨p.1, p.2⟩ = true
  · rw [if_pos hv]
  · rw [if_neg hv]

theorem next_uuid_foldl_removeStep (w : World TyTag CVal) :
    ∀ l : List (Nat × Nat), (l.foldl removeStep w).next_uuid = w.next_uuid := by
  intro l
  induction l generalizing w with
  | nil => rfl
  | cons p l ih => rw [List.foldl_cons, ih, next_uuid_removeStep]

theorem next_uuid_applyOp (w : World TyTag CVal) (op : Op TyTag CVal) :
    w.next_uuid ≤ (applyOp w op).1.next_uuid := by
  cases op with
  | addEntity => exact Nat.le_succ _
  | removeEntity e => exact Nat.le_refl _
  | confirm =>
    show w.next_uuid ≤ (w.ent_remove.foldl removeStep w).next_uuid
    rw [next_uuid_foldl_removeStep]
  | addComponent e t v =>
    show w.next_uuid ≤ (add_component w e t v).2.next_uuid
    unfold add_component
    by_cases hv : is_valid_entity w e = true
    · rw [if_pos hv]
    · rw [if_neg hv]
  | getMutComponent e t =>
    show w.next_uuid ≤ (get_mut_component w e t).2.next_uuid
    unfold get_mut_component
    by_cases hv : is_valid_entity w e = true
    · rw [if_pos hv]
      split <;> exact Nat.le_refl _
    · rw [if_neg hv]
  | removeComponent e t =>
    show w.next_uuid ≤ (remove_component w e t).2.next_uuid
    unfold remove_component
    by_cases hv : is_valid_entity w e = true
    · rw [if_pos hv]
      dsimp only
      split <;> exact Nat.le_refl _
    · rw [if_neg hv]
  | setParent e p =>
    show w.next_uuid ≤ (set_parent w e p).2.next_uuid
    unfold set_parent
    by_cases hv : (is_valid_entity w e && is_valid_entity w p) = true
    · rw [if_pos hv]
    · rw [if_neg hv]
  | unlinkParent e =>
    show w.next_uuid ≤ (unlink_parent w e).next_uuid
    unfold unlink_parent
    by_cases hv : is_valid_entity w e = true
    · rw [if_pos hv]
    · rw [if_neg hv]

end World

namespace World

variable {TyTag : Type} [DecidableEq TyTag] {CVal : TyTag → Type}

theorem add_entity_grows_active (w : World TyTag CVal) :
    (add_entity w).1.uuid + 1 ≤ (add_entity w).2.active.length := by
  cases hr : w.reusable_idxs with
  | nil =>
    rw [add_entity_nil w hr]
    dsimp only
    rw [List.length_set]
    by_cases hc : w.active.length ≤ w.next_uuid
    · rw [if_pos hc, resizeTo_length]; omega
    · rw [if_neg hc]; omega
  | cons i rest =>
    rw [add_entity_cons w i rest hr]
    dsimp only
    rw [List.length_set]
    by_cases hc : w.active.length ≤ w.next_uuid
    · rw [if_pos hc, resizeTo_length]; omega
    · rw [if_neg hc]; omega

theorem add_entity_idx_lt_uuid {w : World TyTag CVal} (hw : Inv w) :
    (add_entity w).1.idx < (add_entity w).1.uuid := by
  cases hr : w.reusable_idxs with
  | nil =>
    rw [add_entity_nil w hr]
    exact hw.idx_lt_uuid
  | cons i rest =>
    rw [add_entity_cons w i rest hr]
    have h1 := hw.reus_lt_idx i (by rw [hr]; exact List.mem_cons_self i rest)
    have h2 := hw.idx_lt_uuid
    dsimp only
    omega

theorem applyOp_addEntity_some {w : World TyTag CVal} {op : Op TyTag CVal}
    {e : Entity} (h : (applyOp w op).2 = some e) :
    e.uuid = w.next_uuid ∧ (applyOp w op).1.next_uuid = w.next_uuid + 1 := by
  cases op with
  | addEntity =>
    have he : (add_entity w).1 = e := by
      have hx : (applyOp w Op.addEntity).2 = some (add_entity w).1 := rfl
      rw [hx] at h
      exact Option.some.inj h
    refine ⟨?_, rfl⟩
    rw [← he]
    rfl
  | removeEntity e2 => simp [applyOp] at h
  | confirm => simp [applyOp] at h
  | addComponent e2 t v => simp [applyOp] at h
  | getMutComponent e2 t => simp [applyOp] at h
  | removeComponent e2 t => simp [applyOp] at h
  | setParent e2 p => simp [applyOp] at h
  | unlinkParent e2 => simp [applyOp] at h

theorem run_created :
    ∀ (ops : List (Op TyTag CVal)) (w : World TyTag CVal),
      (∀ u ∈ (run w ops).2.map Entity.uuid,
        w.next_uuid ≤ u ∧ u < (run w ops).1.next_uuid) ∧
      ((run w ops).2.map Entity.uuid).Nodup ∧
      w.next_uuid ≤ (run w ops).1.next_uuid := by
  intro ops
  induction ops with
  | nil =>
    intro w
    exact ⟨by simp [run], by simp [run], Nat.le_refl _⟩
  | cons op ops ih =>
    intro w
    obtain ⟨hb, hnd, hm⟩ := ih (applyOp w op).1
    have hmono := next_uuid_applyOp w op
    rw [show run w (op :: ops) =
      ((run (applyOp w op).1 ops).1,
        (applyOp w op).2.toList ++ (run (applyOp w op).1 ops).2) from rfl]
    dsimp only
    cases h2 : (applyOp w op).2 with
    | none =>
      simp only [Option.toList_none, List.nil_append]
      exact ⟨fun u hu => ⟨Nat.le_trans hmono (hb u hu).1, (hb u hu).2⟩, hnd,
        Nat.le_trans hmono hm⟩
    | some e =>
      obtain ⟨heu, hnu⟩ := applyOp_addEntity_some h2
      simp only [Option.toList_some, List.cons_append, List.map_cons]
      refine ⟨?_, ?_, Nat.le_trans hmono hm⟩
      · intro u hu
        rcases List.mem_cons.mp hu with h1 | h1
        · rw [h1, heu]
          refine ⟨Nat.le_refl _, ?_⟩
          rw [hnu] at hm
          omega
        · obtain ⟨hb1, hb2⟩ := hb u h1
          exact ⟨Nat.le_trans hmono hb1, hb2⟩
      · refine List.nodup_cons.mpr ⟨?_, hnd⟩
        intro hmem
        obtain ⟨hb1, -⟩ := hb e.uuid hmem
        rw [hnu] at hb1
        omega

end World

/-- C9: in every reachable World a valid entity's index is strictly
below both the components-vector length and the slot-table length, so
the unchecked indexing performed after the validity check is in
bounds; moreover add_entity always grows the slot table to cover the
fresh uuid, and that uuid strictly exceeds the assigned index. -/
theorem C9_valid_index_in_bounds {TyTag : Type} [DecidableEq TyTag]
    {CVal : TyTag → Type} (w : World TyTag CVal) (e : Entity)
    (hreach : World.Reachable w) (hv : World.is_valid_entity w e = true) :
    e.idx < w.components.length ∧ e.idx < w.active.length ∧
    (∀ w' : World TyTag CVal,
      (World.add_entity w').1.uuid + 1 ≤ (World.add_entity w').2.active.length) ∧
    (World.add_entity w).1.idx < (World.add_entity w).1.uuid := by
  have hw := World.Inv_reachable hreach
  obtain ⟨hlt, hg, hne⟩ := World.is_valid_iff.mp hv
  refine ⟨?_, hlt, fun w' => World.add_entity_grows_active w',
    World.add_entity_idx_lt_uuid hw⟩
  rw [hw.comps_len]
  refine hw.active_lt_idx e.idx ?_
  rw [hg]
  exact hne

/-- Witness for C9 on the reachable World holding one created
entity. -/
theorem C9_valid_index_in_bounds_witness :
    World.is_valid_entity (World.run cnew [Op.addEntity]).1 ⟨0, 1⟩ = true ∧
    (0 : Nat) < (World.run cnew [Op.addEntity]).1.components.length :=
  ⟨by decide,
    (C9_valid_index_in_bounds (World.run cnew [Op.addEntity]).1 ⟨0, 1⟩
      ⟨[Op.addEntity], rfl⟩ (by decide)).1⟩

/-- C3: over every operation sequence, the uuids of the entities
returned by add_entity are pairwise distinct (no generation is issued
twice over the World's lifetime), hence the returned entities are
pairwise distinct; and in any World two simultaneously valid entities
sharing an index are equal. -/
theorem C3_identifier_uniqueness {TyTag : Type} [DecidableEq TyTag]
    {CVal : TyTag → Type} (ops : List (Op TyTag CVal)) :
    ((World.run (World.new TyTag CVal) ops).2.map Entity.uuid).Nodup ∧
    (World.run (World.new TyTag CVal) ops).2.Pairwise (· ≠ ·) ∧
    (∀ (w : World TyTag CVal) (e1 e2 : Entity),
      World.is_valid_entity w e1 = true → World.is_valid_entity w e2 = true →
      e1.idx = e2.idx → e1 = e2) := by
  obtain ⟨-, hnd, -⟩ := World.run_created ops (World.new TyTag CVal)
  refine ⟨hnd, ?_, fun w e1 e2 h1 h2 h3 => World.valid_same_idx h1 h2 h3⟩
  have hp := (List.pairwise_map.mp hnd)
  exact hp.imp fun h heq => h (congrArg Entity.uuid heq)

/-- Witness for C3 at a two-creation sequence and a concrete valid
entity. -/
theorem C3_identifier_uniqueness_witness :
    World.is_valid_entity (World.run cnew [Op.addEntity]).1 ⟨0, 1⟩ = true ∧
    ((World.run cnew [Op.addEntity, Op.addEntity]).2.map Entity.uuid).Nodup ∧
    (⟨0, 1⟩ : Entity) = ⟨0, 1⟩ :=
  ⟨by decide,
    (C3_identifier_uniqueness [Op.addEntity, Op.addEntity]).1,
    (C3_identifier_uniqueness ([Op.addEntity] : List COp)).2.2
      (World.run cnew [Op.addEntity]).1 ⟨0, 1⟩ ⟨0, 1⟩ (by decide) (by decide)
      rfl⟩

namespace World

variable {TyTag : Type} [DecidableEq TyTag] {CVal : TyTag → Type}

theorem getElem?_of_getD {l : List Nat} {i : Nat} (h : i < l.length) :
    l[i]? = some (l.getD i 0) := by
  rw [List.getElem?_eq_getElem h, List.getD_eq_getElem?_getD,
    List.getElem?_eq_getElem h]
  rfl

theorem hmGet_nil (k : Nat) : hmGet [] k = none := rfl

theorem mem_iterEntities {active : List Nat} {added : List (Nat × Nat)}
    {e : Entity} :
    e ∈ iterEntities active added ↔
      e.idx < active.length ∧ active.getD e.idx 0 = e.uuid ∧ e.uuid ≠ 0 ∧
      hmGet added e.idx = none := by
  unfold iterEntities
  rw [List.mem_filterMap]
  constructor
  · rintro ⟨idx, hidx, hfn⟩
    rw [List.mem_range] at hidx
    dsimp only at hfn
    by_cases h0 : active.getD idx 0 = 0
    · rw [if_pos h0] at hfn; cases hfn
    · rw [if_neg h0] at hfn
      by_cases h1 : (hmGet added idx).isSome = true
      · rw [if_pos h1] at hfn; cases hfn
      · rw [if_neg h1] at hfn
        have he := Option.some.inj hfn
        have hidx' : e.idx = idx := by rw [← he]
        have huuid : e.uuid = active.getD idx 0 := by rw [← he]
        refine ⟨by rw [hidx']; exact hidx, by rw [hidx', ← huuid],
          by rw [huuid]; exact h0, ?_⟩
        rw [hidx']
        cases hg : hmGet added idx with
        | none => rfl
        | some u => rw [hg] at h1; exact absurd rfl h1
  · rintro ⟨h1, h2, h3, h4⟩
    refine ⟨e.idx, List.mem_range.mpr h1, ?_⟩
    dsimp only
    rw [if_neg (by rw [h2]; exact h3), if_neg (by rw [h4]; simp), h2]
  -- the yielded pair is exactly e by structure eta

theorem mem_list_entities {w : World TyTag CVal} {e : Entity} :
    e ∈ list_entities w ↔
      e.idx < w.active.length ∧ w.active.getD e.idx 0 = e.uuid ∧ e.uuid ≠ 0 ∧
      ¬ hmGet w.ent_added e.idx = some e.uuid := by
  unfold list_entities
  rw [List.mem_map]
  constructor
  · rintro ⟨p, hp, hpe⟩
    rw [List.mem_filter] at hp
    obtain ⟨hp1, hp2⟩ := hp
    rw [List.mem_filter] at hp1
    obtain ⟨hpm, hp0⟩ := hp1
    have hpm' : (p.1, p.2) ∈ w.active.enum := by simpa using hpm
    have hget := List.mk_mem_enum_iff_getElem?.mp hpm'
    have hlt : p.1 < w.active.length := by
      rcases List.getElem?_eq_some.mp hget with ⟨hl, -⟩
      exact hl
    have hgd : w.active.getD p.1 0 = p.2 := by
      rw [getElem?_of_getD hlt] at hget
      exact Option.some.inj hget
    have hidx' : e.idx = p.1 := by rw [← hpe]
    have huuid : e.uuid = p.2 := by rw [← hpe]
    have hp0' : p.2 ≠ 0 := by simpa using hp0
    refine ⟨by rw [hidx']; exact hlt, by rw [hidx', huuid]; exact hgd,
      by rw [huuid]; exact hp0', ?_⟩
    intro hcontra
    rw [hidx', huuid] at hcontra
    rw [hcontra] at hp2
    simp at hp2
  · rintro ⟨h1, h2, h3, h4⟩
    refine ⟨(e.idx, e.uuid), ?_, rfl⟩
    rw [List.mem_filter]
    constructor
    · rw [List.mem_filter]
      refine ⟨?_, by simpa using h3⟩
      refine List.mk_mem_enum_iff_getElem?.mpr ?_
      rw [getElem?_of_getD h1, h2]
    · cases hg : hmGet w.ent_added e.idx with
      | none => rfl
      | some u =>
        have hu : u ≠ e.uuid := by
          intro hcontra
          rw [hcontra] at hg
          exact h4 hg
        simpa using fun hcontra => hu hcontra.symm

theorem grown_length_ge (w : World TyTag CVal) :
    w.active.length ≤ (if w.active.length ≤ w.next_uuid then
      resizeTo w.active (w.next_uuid + 1) else w.active).length := by
  by_cases hc : w.active.length ≤ w.next_uuid
  · rw [if_pos hc, resizeTo_length]; omega
  · rw [if_neg hc]

theorem add_entity_spec {w : World TyTag CVal} (hw : Inv w) :
    is_valid_entity (add_entity w).2 (add_entity w).1 = true ∧
    hmGet (add_entity w).2.ent_added (add_entity w).1.idx =
      some (add_entity w).1.uuid ∧
    (add_entity w).2.ent_remove = w.ent_remove := by
  cases hr : w.reusable_idxs with
  | nil =>
    rw [add_entity_nil w hr]
    dsimp only
    have hlt := lt_grown_length w w.next_idx (Nat.le_of_lt hw.idx_lt_uuid)
    refine ⟨?_, hmGet_insert_self _ _ _, rfl⟩
    rw [is_valid_iff]
    refine ⟨by rw [List.length_set]; exact hlt, getD_set_self _ _ _ hlt, ?_⟩
    show w.next_uuid ≠ 0
    have := hw.uuid_pos; omega
  | cons i rest =>
    rw [add_entity_cons w i rest hr]
    dsimp only
    have hi_lt : i < w.next_idx :=
      hw.reus_lt_idx i (by rw [hr]; exact List.mem_cons_self i rest)
    have hlt := lt_grown_length w i (by have := hw.idx_lt_uuid; omega)
    refine ⟨?_, hmGet_insert_self _ _ _, rfl⟩
    rw [is_valid_iff]
    refine ⟨by rw [List.length_set]; exact hlt, getD_set_self _ _ _ hlt, ?_⟩
    show w.next_uuid ≠ 0
    have := hw.uuid_pos; omega

theorem step_preserves {w2 : World TyTag CVal} {e : Entity}
    (op : Op TyTag CVal) (hcf : op ≠ Op.confirm)
    (hv : is_valid_entity w2 e = true)
    (ha : hmGet w2.ent_added e.idx = some e.uuid) (hw : Inv w2) :
    is_valid_entity (applyOp w2 op).1 e = true ∧
    hmGet (applyOp w2 op).1.ent_added e.idx = some e.uuid := by
  obtain ⟨hlt, hg, hne⟩ := is_valid_iff.mp hv
  cases op with
  | confirm => exact absurd rfl hcf
  | addEntity =>
    show is_valid_entity (add_entity w2).2 e = true ∧
      hmGet (add_entity w2).2.ent_added e.idx = some e.uuid
    have hidx_lt : e.idx < w2.next_idx :=
      hw.active_lt_idx e.idx (by rw [hg]; exact hne)
    cases hr : w2.reusable_idxs with
    | nil =>
      rw [add_entity_nil w2 hr]
      dsimp only
      have hne_idx : e.idx ≠ w2.next_idx := by omega
      constructor
      · rw [is_valid_iff]
        refine ⟨?_, ?_, hne⟩
        · rw [List.length_set]
          exact Nat.lt_of_lt_of_le hlt (grown_length_ge w2)
        · rw [getD_set_ne _ _ _ _ hne_idx, grown_getD, hg]
      · rw [hmGet_insert_ne _ _ _ _ hne_idx]
        exact ha
    | cons i rest =>
      rw [add_entity_cons w2 i rest hr]
      dsimp only
      have hne_idx : e.idx ≠ i := by
        intro hcontra
        have h0 := hw.reus_free i (by rw [hr]; exact List.mem_cons_self i rest)
        rw [← hcontra, hg] at h0
        exact hne h0
      constructor
      · rw [is_valid_iff]
        refine ⟨?_, ?_, hne⟩
        · rw [List.length_set]
          exact Nat.lt_of_lt_of_le hlt (grown_length_ge w2)
        · rw [getD_set_ne _ _ _ _ hne_idx, grown_getD, hg]
      · rw [hmGet_insert_ne _ _ _ _ hne_idx]
        exact ha
  | removeEntity e2 => exact ⟨hv, ha⟩
  | addComponent e2 t v =>
    constructor
    · show is_valid_entity (add_component w2 e2 t v).2 e = true
      unfold add_component
      by_cases hval : is_valid_entity w2 e2 = true
      · rw [if_pos hval]; exact hv
      · rw [if_neg hval]; exact hv
    · show hmGet (add_component w2 e2 t v).2.ent_added e.idx = some e.uuid
      unfold add_component
      by_cases hval : is_valid_entity w2 e2 = true
      · rw [if_pos hval]; exact ha
      · rw [if_neg hval]; exact ha
  | getMutComponent e2 t =>
    constructor
    · show is_valid_entity (get_mut_component w2 e2 t).2 e = true
      unfold get_mut_component
      by_cases hval : is_valid_entity w2 e2 = true
      · rw [if_pos hval]; split <;> exact hv
      · rw [if_neg hval]; exact hv
    · show hmGet (get_mut_component w2 e2 t).2.ent_added e.idx = some e.uuid
      unfold get_mut_component
      by_cases hval : is_valid_entity w2 e2 = true
      · rw [if_pos hval]; split <;> exact ha
      · rw [if_neg hval]; exact ha
  | removeComponent e2 t =>
    constructor
    · show is_valid_entity (remove_component w2 e2 t).2 e = true
      unfold remove_component
      by_cases hval : is_valid_entity w2 e2 = true
      · rw [if_pos hval]; dsimp only; split <;> exact hv
      · rw [if_neg hval]; exact hv
    · show hmGet (remove_component w2 e2 t).2.ent_added e.idx = some e.uuid
      unfold remove_component
      by_cases hval : is_valid_entity w2 e2 = true
      · rw [if_pos hval]; dsimp only; split <;> exact ha
      · rw [if_neg hval]; exact ha
  | setParent e2 p2 =>
    constructor
    · show is_valid_entity (set_parent w2 e2 p2).2 e = true
      unfold set_parent
      by_cases hval : (is_valid_entity w2 e2 && is_valid_entity w2 p2) = true
      · rw [if_pos hval]; exact hv
      · rw [if_neg hval]; exact hv
    · show hmGet (set_parent w2 e2 p2).2.ent_added e.idx = some e.uuid
      unfold set_parent
      by_cases hval : (is_valid_entity w2 e2 && is_valid_entity w2 p2) = true
      · rw [if_pos hval]; exact ha
      · rw [if_neg hval]; exact ha
  | unlinkParent e2 =>
    constructor
    · show is_valid_entity (unlink_parent w2 e2) e = true
      unfold unlink_parent
      by_cases hval : is_valid_entity w2 e2 = true
      · rw [if_pos hval]; exact hv
      · rw [if_neg hval]; exact hv
    · show hmGet (unlink_parent w2 e2).ent_added e.idx = some e.uuid
      unfold unlink_parent
      by_cases hval : is_valid_entity w2 e2 = true
      · rw [if_pos hval]; exact ha
      · rw [if_neg hval]; exact ha

theorem run_keeps_entity {e : Entity} :
    ∀ (mid : List (Op TyTag CVal)) (w2 : World TyTag CVal),
      Op.confirm ∉ mid → is_valid_entity w2 e = true →
      hmGet w2.ent_added e.idx = some e.uuid → Inv w2 →
      is_valid_entity (run w2 mid).1 e = true ∧
      hmGet (run w2 mid).1.ent_added e.idx = some e.uuid := by
  intro mid
  induction mid with
  | nil => intro w2 _ hv ha _; exact ⟨hv, ha⟩
  | cons op mid ih =>
    intro w2 hc hv ha hw
    have hc1 : op ≠ Op.confirm := fun h => hc (h ▸ List.mem_cons_self op mid)
    have hc2 : Op.confirm ∉ mid := fun h => hc (List.mem_cons_of_mem op h)
    obtain ⟨hv', ha'⟩ := step_preserves op hc1 hv ha hw
    exact ih (applyOp w2 op).1 hc2 hv' ha' (Inv_applyOp hw op)

theorem ent_remove_applyOp (w2 : World TyTag CVal) (op : Op TyTag CVal)
    (hrm : ∀ e2, op ≠ Op.removeEntity e2) (hcf : op ≠ Op.confirm) :
    (applyOp w2 op).1.ent_remove = w2.ent_remove := by
  cases op with
  | addEntity => rfl
  | removeEntity e2 => exact absurd rfl (hrm e2)
  | confirm => exact absurd rfl hcf
  | addComponent e2 t v =>
    show (add_component w2 e2 t v).2.ent_remove = w2.ent_remove
    unfold add_component
    by_cases hval : is_valid_entity w2 e2 = true
    · rw [if_pos hval]
    · rw [if_neg hval]
  | getMutComponent e2 t =>
    show (get_mut_component w2 e2 t).2.ent_remove = w2.ent_remove
    unfold get_mut_component
    by_cases hval : is_valid_entity w2 e2 = true
    · rw [if_pos hval]; split <;> rfl
    · rw [if_neg hval]
  | removeComponent e2 t =>
    show (remove_component w2 e2 t).2.ent_remove = w2.ent_remove
    unfold remove_component
    by_cases hval : is_valid_entity w2 e2 = true
    · rw [if_pos hval]; dsimp only; split <;> rfl
    · rw [if_neg hval]
  | setParent e2 p2 =>
    show (set_parent w2 e2 p2).2.ent_remove = w2.ent_remove
    unfold set_parent
    by_cases hval : (is_valid_entity w2 e2 && is_valid_entity w2 p2) = true
    · rw [if_pos hval]
    · rw [if_neg hval]
  | unlinkParent e2 =>
    show (unlink_parent w2 e2).ent_remove = w2.ent_remove
    unfold unlink_parent
    by_cases hval : is_valid_entity w2 e2 = true
    · rw [if_pos hval]
    · rw [if_neg hval]

theorem ent_remove_origin :
    ∀ (ops : List (Op TyTag CVal)) (w2 : World TyTag CVal) (p : Nat × Nat),
      p ∈ (run w2 ops).1.ent_remove →
      p ∈ w2.ent_remove ∨ Op.removeEntity ⟨p.1, p.2⟩ ∈ ops := by
  intro ops
  induction ops with
  | nil => intro w2 p h; exact Or.inl h
  | cons op ops ih =>
    intro w2 p h
    have h' : p ∈ (run (applyOp w2 op).1 ops).1.ent_remove := h
    rcases ih (applyOp w2 op).1 p h' with h1 | h1
    · by_cases hcf : op = Op.confirm
      · rw [hcf] at h1
        have h2 : p ∈ ([] : List (Nat × Nat)) := h1
        cases h2
      · by_cases hrm : ∃ e2, op = Op.removeEntity e2
        · obtain ⟨e2, he2⟩ := hrm
          rw [he2] at h1
          have h2 : p ∈ hmInsert w2.ent_remove e2.idx e2.uuid := h1
          rcases mem_hmInsert h2 with h3 | h3
          · right
            rw [he2, h3]
            exact List.mem_cons_self _ _
          · exact Or.inl h3
        · have heq := ent_remove_applyOp w2 op
            (fun e2 hco => hrm ⟨e2, hco⟩) hcf
          rw [heq] at h1
          exact Or.inl h1
    · exact Or.inr (List.mem_cons_of_mem op h1)

theorem removeStep_keeps_valid {w3 : World TyTag CVal} {e : Entity}
    (hv : is_valid_entity w3 e = true) {p : Nat × Nat}
    (hne : p ≠ (e.idx, e.uuid)) :
    is_valid_entity (removeStep w3 p) e = true := by
  unfold removeStep
  by_cases hvp : is_valid_entity w3 ⟨p.1, p.2⟩ = true
  · rw [if_pos hvp]
    obtain ⟨hlt, hg, hne0⟩ := is_valid_iff.mp hv
    have hpi : p.1 ≠ e.idx := by
      intro hcontra
      have heq : (⟨p.1, p.2⟩ : Entity) = e := valid_same_idx hvp hv hcontra
      have h1 : p.1 = e.idx := congrArg Entity.idx heq
      have h2 : p.2 = e.uuid := congrArg Entity.uuid heq
      exact hne (by rw [← h1, ← h2])
    rw [is_valid_iff]
    refine ⟨by rw [List.length_set]; exact hlt, ?_, hne0⟩
    rw [getD_set_ne _ _ _ _ (by omega : e.idx ≠ p.1), hg]
  · rw [if_neg hvp]
    exact hv

theorem foldl_removeStep_keeps_valid {e : Entity} :
    ∀ (l : List (Nat × Nat)) (w3 : World TyTag CVal),
      is_valid_entity w3 e = true → (∀ p ∈ l, p ≠ (e.idx, e.uuid)) →
      is_valid_entity (l.foldl removeStep w3) e = true := by
  intro l
  induction l with
  | nil => intro w3 hv _; exact hv
  | cons p l ih =>
    intro w3 hv hall
    rw [List.foldl_cons]
    exact ih (removeStep w3 p)
      (removeStep_keeps_valid hv (hall p (List.mem_cons_self p l)))
      (fun q hq => hall q (List.mem_cons_of_mem p hq))

theorem confirm_keeps_valid {w3 : World TyTag CVal} {e : Entity}
    (hv : is_valid_entity w3 e = true)
    (hall : ∀ p ∈ w3.ent_remove, p ≠ (e.idx, e.uuid)) :
    is_valid_entity (confirm_changes w3) e = true ∧
    (confirm_changes w3).ent_added = [] := by
  exact ⟨foldl_removeStep_keeps_valid w3.ent_remove w3 hv hall, rfl⟩

end World

/-- C6 counterexample: remove_entity performs no validity check, so a
destroy call made with the future identity (0, 5) before that entity
exists stays staged; the entity created next receives exactly that
identity, and although it is never destroyed between its creation and
the commit, the commit frees it, so it does not appear in
list_entities afterwards. -/
theorem C6_visibility_deferral_cex :
    World.createdEnt staleRemovalOps = ⟨0, 5⟩ ∧
    World.createdEnt staleRemovalOps ∉
      World.list_entities
        (World.confirm_changes (World.midWorld staleRemovalOps [])) ∧
    World.is_valid_entity
      (World.confirm_changes (World.midWorld staleRemovalOps []))
      (World.createdEnt staleRemovalOps) = false := by
  refine ⟨by decide, by decide, by decide⟩

/-- C6 (amended): an entity returned by add_entity is absent from
list_entities and from the iterator as long as no commit has occurred
since its creation; after the next commit it appears in both, provided
destroy_entity was never called with that entity's identity at any
point before the commit (not merely between creation and commit). -/
theorem C6_visibility_deferral_amended {TyTag : Type} [DecidableEq TyTag]
    {CVal : TyTag → Type} (pre mid : List (Op TyTag CVal))
    (hc : Op.confirm ∉ mid)
    (hpre : Op.removeEntity (World.createdEnt pre) ∉ pre)
    (hmid : Op.removeEntity (World.createdEnt pre) ∉ mid) :
    World.createdEnt pre ∉ World.list_entities (World.midWorld pre mid) ∧
    World.createdEnt pre ∉
      World.iterEntities (World.midWorld pre mid).active
        (World.midWorld pre mid).ent_added ∧
    World.createdEnt pre ∈
      World.list_entities (World.confirm_changes (World.midWorld pre mid)) ∧
    World.createdEnt pre ∈
      World.iterEntities
        (World.confirm_changes (World.midWorld pre mid)).active
        (World.confirm_changes (World.midWorld pre mid)).ent_added := by
  unfold World.createdEnt World.midWorld
  have hw1 : World.Inv (World.run (World.new TyTag CVal) pre).1 :=
    World.Inv_run World.Inv_new pre
  obtain ⟨hv2, ha2, hrm2⟩ := World.add_entity_spec hw1
  have hw2 := World.Inv_add_entity hw1
  obtain ⟨hv3, ha3⟩ := World.run_keeps_entity mid
    (World.add_entity (World.run (World.new TyTag CVal) pre).1).2 hc hv2 ha2 hw2
  have hskip : ∀ p ∈ (World.midWorld pre mid).ent_remove,
      p ≠ ((World.createdEnt pre).idx, (World.createdEnt pre).uuid) := by
    intro p hp hcontra
    rw [hcontra] at hp
    rcases World.ent_remove_origin mid _ _ hp with h1 | h1
    · rw [hrm2] at h1
      rcases World.ent_remove_origin pre _ _ h1 with h2 | h2
      · cases h2
      · exact hpre h2
    · exact hmid h1
  obtain ⟨hvC, haC⟩ := World.confirm_keeps_valid hv3 hskip
  obtain ⟨hl, hg, hne⟩ := World.is_valid_iff.mp hvC
  refine ⟨?_, ?_, ?_, ?_⟩
  · intro hmem
    obtain ⟨-, -, -, h4⟩ := World.mem_list_entities.mp hmem
    exact h4 ha3
  · intro hmem
    obtain ⟨-, -, -, h4⟩ := World.mem_iterEntities.mp hmem
    rw [ha3] at h4
    cases h4
  · refine World.mem_list_entities.mpr ⟨hl, hg, hne, ?_⟩
    rw [haC]
    simp [hmGet]
  · refine World.mem_iterEntities.mpr ⟨hl, hg, hne, ?_⟩
    rw [haC]
    exact World.hmGet_nil _

/-- Witness for the amended C6 with empty surrounding call
sequences. -/
theorem C6_visibility_deferral_amended_witness :
    Op.confirm ∉ ([] : List COp) ∧
    World.createdEnt ([] : List COp) ∈
      World.list_entities
        (World.confirm_changes (World.midWorld ([] : List COp) [])) :=
  ⟨by simp,
    (C6_visibility_deferral_amended [] [] (by simp) (by simp)
      (by simp)).2.2.1⟩
